import Mathlib

/-!
Verification of the concurrency core of the slog/Detock transaction
scheduler against its specification.

The development shallowly embeds the relevant C++ sources:
  - src/common/async_log.h              (AsyncLog)
  - src/common/configuration.cpp        (FNVHash, partition_of_key)
  - src/module/scheduler_components/ddr_lock_manager.cpp
        (LockQueueTail, DDRLockManager, DeadlockResolver)
  - src/module/sequencer.cpp            (timestamp gate)

Machine integers are modeled as Nat / Int; the only place where wrap-around
is reachable (the uint32 next-position counter of AsyncLog) carries an
explicit modulus.  Fallible operations return Except / Option; a fatal
LOG(FATAL) path is an absent transition (Option.none).
-/

namespace Slog

/-- Transaction identifiers are 64-bit unsigned integers (types.h).  Only
equality and order comparisons are ever performed on them, so Nat is a
faithful carrier. -/
abbrev TxnId := Nat

/-- Sentinel id 0 denoting a logically removed wait-for edge (spec data
model; the ddr lock manager header is not part of this source tree). -/
def kSentinelTxnId : TxnId := 0

/-- Modulus of the uint32 positions used by AsyncLog. -/
def two32 : Nat := 4294967296

/-- Generic association-list lookup, mirroring unordered_map::find.  The C++
maps have unique keys; reachable states of the embedding keep keys nodup. -/
def assocFind {β : Type} : List (Nat × β) → Nat → Option β
  | [], _ => none
  | kv :: rest, k => if kv.1 = k then some kv.2 else assocFind rest k

/-- Per-transaction bookkeeping record.  The TxnInfo struct lives in the ddr
lock manager header, which is not under src/; the fields are the ones the
spec's data model records and the .cpp uses.  The two counters are C++ int,
hence Int. -/
structure TxnInfo where
  id : TxnId
  unarrived_lock_requests : Int := 0
  num_waiting_for : Int := 0
  waited_by : List TxnId := []
deriving Repr, DecidableEq

/-- Predicate is_complete(): unarrived_lock_requests == 0. -/
def TxnInfo.is_complete (t : TxnInfo) : Bool :=
  t.unarrived_lock_requests == 0

/-- Predicate is_ready(): is_complete() and num_waiting_for == 0. -/
def TxnInfo.is_ready (t : TxnInfo) : Bool :=
  t.is_complete && t.num_waiting_for == 0

/-- The TxnInfoTable: unordered_map from TxnId to TxnInfo. -/
abbrev TxnTable := List (TxnId × TxnInfo)

/-- Lookup in the TxnInfoTable (txn_info_.find). -/
def lookupTxn (tbl : TxnTable) (id : TxnId) : Option TxnInfo :=
  assocFind tbl id

/-- In-place modification of the entry at a key, as done through C++
iterators/references into the map.  Entries at other keys are untouched. -/
def updateTxn (tbl : TxnTable) (id : TxnId) (f : TxnInfo → TxnInfo) : TxnTable :=
  tbl.map fun kv => if kv.1 = id then (kv.1, f kv.2) else kv

/-- txn_info_.erase(txn_id). -/
def eraseTxn (tbl : TxnTable) (id : TxnId) : TxnTable :=
  tbl.filter fun kv => kv.1 ≠ id

/-- txn_info_.try_emplace(txn_id, txn_id): insert a default-initialized
TxnInfo if the key is absent, otherwise leave the map unchanged. -/
def emplaceTxn (tbl : TxnTable) (id : TxnId) : TxnTable :=
  if (lookupTxn tbl id).isSome then tbl else tbl ++ [(id, { id := id })]

/-- Keys currently in the table. -/
def keysOf (tbl : TxnTable) : List TxnId :=
  tbl.map (·.1)

/-- Number of non-sentinel occurrences of a txn id in one waited_by list. -/
def waiterOcc (t : TxnId) (info : TxnInfo) : Nat :=
  (info.waited_by.filter (fun x => x ≠ kSentinelTxnId)).count t

/-- Total number of non-sentinel occurrences of a txn id across the
waited_by lists of all txns in the table. -/
def countWaiters (tbl : TxnTable) (t : TxnId) : Nat :=
  (tbl.map (fun kv => waiterOcc t kv.2)).sum

/-- Every non-sentinel id in a waited_by list names a txn still present in
the table. -/
def EdgesPresent (tbl : TxnTable) : Prop :=
  ∀ kv ∈ tbl, ∀ x ∈ kv.2.waited_by, x ≠ kSentinelTxnId →
    (lookupTxn tbl x).isSome

/-- The claimed wait-for graph balance: each present txn's num_waiting_for
equals the total number of its non-sentinel occurrences across all
waited_by lists. -/
def Balanced (tbl : TxnTable) : Prop :=
  ∀ id info, lookupTxn tbl id = some info →
    info.num_waiting_for = (countWaiters tbl id : Int)

/-- Well-formedness of the TxnInfoTable maintained by the lock-API calls:
unique keys, no entry under the sentinel id, dangling-free waited_by
lists, and the balance equation. -/
def WfTable (tbl : TxnTable) : Prop :=
  (keysOf tbl).Nodup ∧ lookupTxn tbl kSentinelTxnId = none ∧
    EdgesPresent tbl ∧ Balanced tbl

/-- Lock modes (types.h). -/
inductive LockMode
  | READ
  | WRITE
deriving Repr, DecidableEq

/-- Result of AcquireLocks (types.h). -/
inductive AcquireLocksResult
  | ACQUIRED
  | WAITING
  | ABORT
deriving Repr, DecidableEq

/-- Lock-table index: key concatenated with the home replica (types.h
MakeKeyReplica).  Only equality on it is used here. -/
abbrev KeyReplica := String

/-- Tail of one per-key lock queue (ddr_lock_manager.h / spec data model):
the current write requester, if any, and the read requesters that arrived
after it. -/
structure LockQueueTail where
  write_lock_requester : Option TxnId := none
  read_lock_requesters : List TxnId := []
deriving Repr, DecidableEq

/-- LockQueueTail::AcquireReadLock (ddr_lock_manager.cpp lines 252-255):
append the reader, return the current write requester as the blocker. -/
def LockQueueTail.acquireReadLock (q : LockQueueTail) (txn_id : TxnId) :
    LockQueueTail × Option TxnId :=
  ({ q with read_lock_requesters := q.read_lock_requesters ++ [txn_id] },
   q.write_lock_requester)

/-- LockQueueTail::AcquireWriteLock (ddr_lock_manager.cpp lines 257-269):
if no reader is pending return the previous write requester (if any),
otherwise return all pending readers and clear them; in both cases the
caller becomes the write requester. -/
def LockQueueTail.acquireWriteLock (q : LockQueueTail) (txn_id : TxnId) :
    LockQueueTail × List TxnId :=
  let deps : List TxnId :=
    if q.read_lock_requesters.isEmpty then
      match q.write_lock_requester with
      | some w => [w]
      | none => []
    else
      q.read_lock_requesters
  ({ write_lock_requester := some txn_id, read_lock_requesters := [] }, deps)

/-- The lock table: unordered_map from key-replica to LockQueueTail. -/
abbrev LockTable := List (KeyReplica × LockQueueTail)

/-- lock_table_[key_replica]: operator[] default-constructs a missing
entry, so observation yields the default tail when the key is absent. -/
def getQueue (lt : LockTable) (k : KeyReplica) : LockQueueTail :=
  match lt.find? (fun kv => kv.1 = k) with
  | some kv => kv.2
  | none => {}

/-- Store back the tail for a key, inserting it if absent. -/
def setQueue (lt : LockTable) (k : KeyReplica) (q : LockQueueTail) : LockTable :=
  if lt.any (fun kv => kv.1 = k) then
    lt.map fun kv => if kv.1 = k then (kv.1, q) else kv
  else
    lt ++ [(k, q)]

/-- State of the DDRLockManager visible to the lock API: the TxnInfoTable
and the lock table.  The resolver outbox is not needed by the lock-API
claims. -/
structure LMState where
  txn_info : TxnTable := []
  lock_table : LockTable := []
deriving Repr, DecidableEq

/-- DDRLockManager::AcceptTransaction (ddr_lock_manager.cpp lines 294-315):
try_emplace the txn, add the expected number of lock requests (2 for a
remaster txn, otherwise the number of keys in partition), and report
is_ready().  The empty-keys fatal check is a guard of the step relation. -/
def acceptTransaction (s : LMState) (txn_id : TxnId) (expected : Nat) :
    LMState × Bool :=
  let tbl := emplaceTxn s.txn_info txn_id
  let tbl := updateTxn tbl txn_id fun t =>
    { t with unarrived_lock_requests := t.unarrived_lock_requests + expected }
  ({ s with txn_info := tbl },
   match lookupTxn tbl txn_id with
   | some t => t.is_ready
   | none => false)

/-- First phase of AcquireLocks (ddr_lock_manager.cpp lines 349-372): walk
locks_to_request in order, updating the per-key queue tails and collecting
blocking txns.  A READ blocker is pushed at the back of the accumulator, a
WRITE's blockers are inserted at the front, as in the source. -/
def collectBlockers (txn_id : TxnId) :
    LockTable → List (KeyReplica × LockMode) → List TxnId → LockTable × List TxnId
  | lt, [], acc => (lt, acc)
  | lt, (k, m) :: rest, acc =>
    let q := getQueue lt k
    match m with
    | LockMode.READ =>
      let r := q.acquireReadLock txn_id
      collectBlockers txn_id (setQueue lt k r.1) rest (acc ++ r.2.toList)
    | LockMode.WRITE =>
      let r := q.acquireWriteLock txn_id
      collectBlockers txn_id (setQueue lt k r.1) rest (r.2 ++ acc)

/-- Second phase of AcquireLocks (ddr_lock_manager.cpp lines 384-401): for
each deduplicated blocker other than the txn itself that still exists in
the table, count it in num_waiting_for and append the txn to its waited_by
list. -/
def addWaitForEdges (txn_id : TxnId) : TxnTable → List TxnId → TxnTable
  | tbl, [] => tbl
  | tbl, b :: rest =>
    if b = txn_id then addWaitForEdges txn_id tbl rest
    else
      match lookupTxn tbl b with
      | none => addWaitForEdges txn_id tbl rest
      | some _ =>
        let tbl1 := updateTxn tbl txn_id fun t =>
          { t with num_waiting_for := t.num_waiting_for + 1 }
        let tbl2 := updateTxn tbl1 b fun t =>
          { t with waited_by := t.waited_by ++ [txn_id] }
        addWaitForEdges txn_id tbl2 rest

/-- DDRLockManager::AcquireLocks (ddr_lock_manager.cpp lines 317-407),
taking the already-enumerated locks_to_request list (the enumeration from
the protobuf transaction is outside the lock manager's state).  Blockers
are deduplicated by sort + unique before the wait-for edges are added. -/
def acquireLocks (s : LMState) (txn_id : TxnId)
    (locks_to_request : List (KeyReplica × LockMode)) :
    LMState × AcquireLocksResult :=
  let c := collectBlockers txn_id s.lock_table locks_to_request []
  let blockers := (c.2.insertionSort (· ≤ ·)).dedup
  let tbl := emplaceTxn s.txn_info txn_id
  let tbl := updateTxn tbl txn_id fun t =>
    { t with unarrived_lock_requests :=
        t.unarrived_lock_requests - locks_to_request.length }
  let tbl := addWaitForEdges txn_id tbl blockers
  let res :=
    match lookupTxn tbl txn_id with
    | some t =>
      if t.is_ready then AcquireLocksResult.ACQUIRED else AcquireLocksResult.WAITING
    | none => AcquireLocksResult.WAITING
  ({ txn_info := tbl, lock_table := c.1 }, res)

/-- Inner loop of ReleaseLocks (ddr_lock_manager.cpp lines 429-446): for
each non-sentinel entry of the released txn's waited_by list that still
exists, decrement its num_waiting_for and record it if it just became
ready. -/
def releaseWaiters : TxnTable → List TxnId → List TxnId → TxnTable × List TxnId
  | tbl, acc, [] => (tbl, acc)
  | tbl, acc, b :: rest =>
    if b = kSentinelTxnId then releaseWaiters tbl acc rest
    else
      match lookupTxn tbl b with
      | none => releaseWaiters tbl acc rest
      | some _ =>
        let tbl1 := updateTxn tbl b fun t =>
          { t with num_waiting_for := t.num_waiting_for - 1 }
        let acc1 :=
          match lookupTxn tbl1 b with
          | some t => if t.is_ready then acc ++ [b] else acc
          | none => acc
        releaseWaiters tbl1 acc1 rest

/-- DDRLockManager::ReleaseLocks (ddr_lock_manager.cpp lines 414-450).  A
missing txn returns the empty list with the state untouched; a present but
unready txn is the fatal path, modeled as none. -/
def releaseLocks (s : LMState) (txn_id : TxnId) :
    Option (LMState × List TxnId) :=
  match lookupTxn s.txn_info txn_id with
  | none => some (s, [])
  | some info =>
    if info.is_ready then
      let r := releaseWaiters s.txn_info [] info.waited_by
      some ({ s with txn_info := eraseTxn r.1 txn_id }, r.2)
    else
      none

/-- One lock-manager call, as the environment can issue them (no resolver
pass interleaved).  Ids of real transactions are nonzero: txn ids are
generated monotonically from nonzero counters and 0 is the edge-removal
sentinel.  The empty-keys fatal checks of AcceptTransaction/AcquireLocks
become guards; the fatal release of an unready txn has no transition since
releaseLocks returns none there. -/
inductive LMStep : LMState → LMState → Prop
  | accept (s : LMState) (id : TxnId) (expected : Nat)
      (hid : id ≠ kSentinelTxnId) (hn : 0 < expected) :
      LMStep s (acceptTransaction s id expected).1
  | acquire (s : LMState) (id : TxnId) (locks : List (KeyReplica × LockMode))
      (hid : id ≠ kSentinelTxnId) (hk : locks ≠ []) :
      LMStep s (acquireLocks s id locks).1
  | release (s : LMState) (id : TxnId) (s' : LMState) (out : List TxnId)
      (hid : id ≠ kSentinelTxnId) (hok : releaseLocks s id = some (s', out)) :
      LMStep s s'

/-- States of the DDRLockManager reachable from the empty initial state by
lock-API calls. -/
inductive LMReachable : LMState → Prop
  | init : LMReachable {}
  | step (s s' : LMState) : LMReachable s → LMStep s s' → LMReachable s'

/-- Gap-tolerant ordered log (async_log.h).  Positions are uint32; the log
is the map of pending items, next the next dequeue position. -/
structure AsyncLog (T : Type) where
  log : List (Nat × T)
  next : Nat
deriving Repr, DecidableEq

/-- AsyncLog constructor: empty log starting at start_from. -/
def AsyncLog.start (T : Type) (start_from : Nat) : AsyncLog T :=
  { log := [], next := start_from }

/-- AsyncLog::Insert (async_log.h lines 22-32): a position below next is a
silent no-op; an occupied position throws; otherwise the item is stored. -/
def AsyncLog.insert {T : Type} (l : AsyncLog T) (position : Nat) (item : T) :
    Except String (AsyncLog T) :=
  if position < l.next then Except.ok l
  else if (assocFind l.log position).isSome then
    Except.error "Log position has already been taken"
  else Except.ok { l with log := l.log ++ [(position, item)] }

/-- AsyncLog::HasNext (async_log.h lines 34-36). -/
def AsyncLog.hasNext {T : Type} (l : AsyncLog T) : Bool :=
  (assocFind l.log l.next).isSome

/-- AsyncLog::Next (async_log.h lines 42-52): move out the item at next,
erase it and advance next; next_ is uint32 and wraps modulo 2^32. -/
def AsyncLog.nextItem {T : Type} (l : AsyncLog T) :
    Except String ((Nat × T) × AsyncLog T) :=
  match assocFind l.log l.next with
  | some item =>
    Except.ok ((l.next, item),
      { log := l.log.filter (fun kv => kv.1 ≠ l.next),
        next := (l.next + 1) % two32 })
  | none => Except.error "Next item does not exist"

/-- Repeatedly call Next up to a given number of times, stopping at the
first failure, collecting the produced (position, item) pairs. -/
def AsyncLog.drain {T : Type} : Nat → AsyncLog T → List (Nat × T) × AsyncLog T
  | 0, l => ([], l)
  | n + 1, l =>
    match l.nextItem with
    | Except.ok r =>
      let d := AsyncLog.drain n r.2
      (r.1 :: d.1, d.2)
    | Except.error _ => ([], l)

/-- Run a sequence of Insert calls, stopping at the first failure. -/
def insertAll {T : Type} (l : AsyncLog T) : List (Nat × T) → Except String (AsyncLog T)
  | [] => Except.ok l
  | (p, x) :: rest =>
    match l.insert p x with
    | Except.ok l' => insertAll l' rest
    | Except.error e => Except.error e

/-- One step of FNVHash (configuration.cpp lines 19-27): the source
multiplies the accumulator by the prime (folded to 32 bits) and then xors
the next character.  The character is C++ char: values at or above 128 are
sign-extended before the xor, which in the folded accumulator amounts to
xoring 2^32 - 256 + b. -/
def fnvStep (h b : Nat) : Nat :=
  (h * 0x01000193 % two32) ^^^ (if b < 128 then b else two32 - 256 + b)

/-- FNVHash (configuration.cpp lines 19-27) over a byte string, starting
from the offset basis 0x811c9dc5. -/
def FNVHash (bytes : List Nat) : Nat :=
  bytes.foldl fnvStep 0x811c9dc5

/-- Modelled from the spec: the 32-bit FNV-1a hash named by the spec's
partitioner section, with offset basis 0x811c9dc5 and prime 0x01000193,
folded modulo 2^32.  FNV-1a xors the byte first and then multiplies. -/
def fnv1aSpec (bytes : List Nat) : Nat :=
  bytes.foldl (fun h b => (h ^^^ b) * 0x01000193 % two32) 0x811c9dc5

/-- Hash-partitioning branch of Configuration::partition_of_key
(configuration.cpp lines 178-187): hash the first partition_key_num_bytes
bytes of the key (the whole key when it is shorter) and reduce modulo the
number of partitions. -/
def partitionOfKeyHash (num_bytes num_partitions : Nat) (key : List Nat) : Nat :=
  let prefixBytes := if num_bytes ≥ key.length then key else key.take num_bytes
  FNVHash prefixBytes % num_partitions

/-- Transaction statuses relevant to the sequencer gate. -/
inductive TxnStatus
  | ACTIVE
  | COMMITTED
  | ABORTED
deriving Repr, DecidableEq

/-- The slice of a transaction the timestamp gate reads and writes:
timestamp (int64 nanoseconds), status and abort reason.  The metric
timestamps the sequencer also records are outside the gate's contract. -/
structure SeqTxn where
  id : Nat
  timestamp : Int
  status : TxnStatus := TxnStatus.ACTIVE
  abort_reason : String := ""
deriving Repr, DecidableEq

/-- The batcher's buffer of future-timestamped transactions, a min-heap
keyed on timestamp; the heap is modeled by its contents. -/
structure FutureBuffer where
  heap : List SeqTxn := []
deriving Repr, DecidableEq

/-- Earliest timestamp currently buffered, none when the buffer is empty. -/
def FutureBuffer.minTimestamp (b : FutureBuffer) : Option Int :=
  (b.heap.map (·.timestamp)).min?

/-- Modelled from the spec: Batcher::BufferFutureTxn is not under src/
(only its caller in sequencer.cpp is).  The spec says the txn is inserted
into a min-heap keyed on timestamp and a signal is needed exactly when the
insertion makes the heap's minimum earlier than before (an empty heap has
no scheduled wake-up, so the first insertion reschedules). -/
def bufferFutureTxn (b : FutureBuffer) (t : SeqTxn) : FutureBuffer × Bool :=
  let signal :=
    match b.minTimestamp with
    | none => true
    | some m => t.timestamp < m
  ({ heap := b.heap ++ [t] }, signal)

/-- Result of walking one waited_by list in
DeadlockResolver::ResolveDeadlock (ddr_lock_manager.cpp lines 213-229):
the rewritten slots, the original occupants of the intra-SCC slots (each
of which gets its num_waiting_for decremented, in order), and the
still-pending new-edge target (none when the edge was placed or none was
due). -/
structure RewriteOut where
  slots : List TxnId
  decs : List TxnId
  pend : Option TxnId
deriving Repr, DecidableEq

/-- Walk the slots of one waited_by list: a slot whose value is in the SCC
(found by binary_search over the sorted member list) is overwritten with
the pending new-edge target if one is still due, else with the sentinel;
slots outside the SCC are untouched. -/
def rewriteSlots (ssc : List TxnId) : List TxnId → Option TxnId → RewriteOut
  | [], pend => { slots := [], decs := [], pend := pend }
  | w :: ws, pend =>
    if w ∈ ssc then
      match pend with
      | some nxt =>
        let r := rewriteSlots ssc ws none
        { slots := nxt :: r.slots, decs := w :: r.decs, pend := r.pend }
      | none =>
        let r := rewriteSlots ssc ws none
        { slots := kSentinelTxnId :: r.slots, decs := w :: r.decs, pend := r.pend }
    else
      let r := rewriteSlots ssc ws pend
      { slots := w :: r.slots, decs := r.decs, pend := r.pend }

/-- Decrement num_waiting_for of an entry. -/
def decNwf (tbl : TxnTable) (id : TxnId) : TxnTable :=
  updateTxn tbl id fun t => { t with num_waiting_for := t.num_waiting_for - 1 }

/-- Increment num_waiting_for of an entry. -/
def incNwf (tbl : TxnTable) (id : TxnId) : TxnTable :=
  updateTxn tbl id fun t => { t with num_waiting_for := t.num_waiting_for + 1 }

/-- Replace the waited_by list of an entry. -/
def setWaitedBy (tbl : TxnTable) (id : TxnId) (wb : List TxnId) : TxnTable :=
  updateTxn tbl id fun t => { t with waited_by := wb }

/-- One iteration of the member loop of ResolveDeadlock (ddr_lock_manager
lines 205-233) on member x with new-edge target nxt (the next-larger
member, none for the largest).  The slot rewrites, the increment of the
new target's counter and the decrements of the original occupants all act
on disjoint fields, so applying the rewritten list and then the counter
changes is the same interleaving the source performs slot by slot.  A
missing member is the fatal CHECK path, modeled as the identity and ruled
out by the theorems' hypotheses. -/
def resolveMember (ssc : List TxnId) (tbl : TxnTable) (x : TxnId)
    (nxt : Option TxnId) : TxnTable :=
  match lookupTxn tbl x with
  | none => tbl
  | some info =>
    let r := rewriteSlots ssc info.waited_by nxt
    let tbl1 := setWaitedBy tbl x r.slots
    let tbl2 :=
      match nxt with
      | some n => if r.pend = none then incNwf tbl1 n else tbl1
      | none => tbl1
    r.decs.foldl decNwf tbl2

/-- The member loop of ResolveDeadlock: i runs from the last (largest)
member down to the first; member i gets member i+1 as its new-edge
target. -/
def resolveChain (ssc : List TxnId) : TxnTable → List TxnId → TxnTable
  | tbl, [] => tbl
  | tbl, x :: rest => resolveMember ssc (resolveChain ssc tbl rest) x rest.head?

/-- DeadlockResolver::ResolveDeadlock (ddr_lock_manager.cpp lines 201-239):
sort the component members ascending, rewrite the snapshot, and return the
head member iff it is now ready. -/
def resolveDeadlock (tbl : TxnTable) (ssc : List TxnId) :
    TxnTable × Option TxnId :=
  let s := ssc.insertionSort (· ≤ ·)
  let tbl' := resolveChain s tbl s
  match s.head? with
  | some h =>
    match lookupTxn tbl' h with
    | some info => (tbl', if info.is_ready then some h else none)
    | none => (tbl', none)
  | none => (tbl', none)

/-- Successor of a member in the sorted component list: the new-edge target
ssc[i+1] that ResolveDeadlock assigns to member ssc[i] (none for the
largest member). -/
def succAfter : List TxnId → TxnId → Option TxnId
  | [], _ => none
  | y :: rest, x => if x = y then rest.head? else succAfter rest x

/-- Number of occurrences of a txn id in the waited_by list of a given
entry of the table (0 when the entry is absent). -/
def countOccIn (tbl : TxnTable) (x t : TxnId) : Nat :=
  match lookupTxn tbl x with
  | some i => i.waited_by.count t
  | none => 0

/-- Number of intra-SCC slots of member x's waited_by list holding the id
j: these are exactly the decrements of j's counter that resolving member x
performs. -/
def intraOcc (tbl : TxnTable) (ssc : List TxnId) (x j : TxnId) : Nat :=
  match lookupTxn tbl x with
  | some i => (i.waited_by.filter (fun w => decide (w ∈ ssc))).count j
  | none => 0

/-- Wait-for graph edge of the snapshot (the forward edge the resolver's
FindTopoOrderAndTranspose walks, ddr_lock_manager.cpp lines 157-178): u
unblocks v when v is a non-sentinel entry of u's waited_by list. -/
def graphEdge (tbl : TxnTable) (u v : TxnId) : Bool :=
  match lookupTxn tbl u with
  | some i => v ≠ kSentinelTxnId && v ∈ i.waited_by
  | none => false

/-- Reachability along wait-for graph edges. -/
def Reach (tbl : TxnTable) (u v : TxnId) : Prop :=
  Relation.ReflTransGen (fun a b => graphEdge tbl a b = true) u v

/-- Mutual reachability: u and v lie in the same strongly connected
component of the snapshot graph. -/
def SameSCC (tbl : TxnTable) (u v : TxnId) : Prop :=
  Reach tbl u v ∧ Reach tbl v u

/-- Whether an id maps to a complete txn. -/
def completeAt (tbl : TxnTable) (u : TxnId) : Bool :=
  match lookupTxn tbl u with
  | some i => i.is_complete
  | none => false

/-- Canonical stability of a component (spec section 4.4 step 3 and the
glossary): every txn that can reach the component along wait-for edges is
complete.  This is the order-free characterization of the UNSTABLE
propagation in FormStronglyConnectedComponent: a component is marked
unstable exactly when it has an incomplete member or an in-edge from an
unstable component, which unfolds along the condensation to reachability
from an incomplete node. -/
def StableComp (tbl : TxnTable) (c : List TxnId) : Prop :=
  ∀ u m, m ∈ c → Reach tbl u m → completeAt tbl u = true

/-- One run of the resolver's SCC phase, modeled by its output: the list of
components in the order the topological pass discovers them, each already
classified stable or not.  The traversal order of the snapshot map shows
up only as the order of this list and the order of the members inside each
component. -/
abbrev SCCRun := List (List TxnId × Bool)

/-- A run is valid for a snapshot when its components exactly partition
the snapshot's txns into mutual-reachability classes and each stability
flag matches the canonical stability of its component. -/
def ValidRun (tbl : TxnTable) (run : SCCRun) : Prop :=
  ((run.map (·.1)).flatten.Perm (keysOf tbl)) ∧
  ∀ p ∈ run,
    p.1 ≠ [] ∧
    (∃ r ∈ p.1, ∀ m, m ∈ p.1 ↔ (m ∈ keysOf tbl ∧ SameSCC tbl m r)) ∧
    (p.2 = true ↔ StableComp tbl p.1)

/-- The resolve phase of one resolver pass (DeadlockResolver::Loop lines
88-114 together with the write-back of lines 123-138, which under equal
snapshots copies the resolved entries verbatim): every stable component
with more than one member is resolved in discovery order, and the ready
heads are collected in that order. -/
def runPass (tbl : TxnTable) (run : SCCRun) : TxnTable × List TxnId :=
  run.foldl
    (fun st p =>
      if p.2 && decide (1 < p.1.length) then
        let r := resolveDeadlock st.1 p.1
        (r.1, st.2 ++ r.2.toList)
      else st)
    (tbl, [])

/-- Ready output contributed by one discovered component: the resolved
head when the component is stable with more than one member and its head
ends up ready, none otherwise. -/
def readyOf (tbl : TxnTable) (p : List TxnId × Bool) : Option TxnId :=
  if p.2 && decide (1 < p.1.length) then (resolveDeadlock tbl p.1).2 else none

/-- The step function folded by runPass, named for the induction lemmas. -/
def passStep (st : TxnTable × List TxnId) (p : List TxnId × Bool) :
    TxnTable × List TxnId :=
  if p.2 && decide (1 < p.1.length) then
    let r := resolveDeadlock st.1 p.1
    (r.1, st.2 ++ r.2.toList)
  else st

/-- The canonical form of one discovered component: members sorted
ascending, stability flag kept.  Two runs over the same snapshot list the
same canonical components, only in different outer and inner orders. -/
def sortComp (p : List TxnId × Bool) : List TxnId × Bool :=
  (p.1.insertionSort (· ≤ ·), p.2)

/-- Outcome of the timestamp gate on one ForwardTxn. -/
inductive GateOutcome
  | enqueue (t : SeqTxn)
  | buffered (b : FutureBuffer) (signal : Bool)
deriving Repr, DecidableEq

/-- Sequencer::ProcessForwardRequest, timestamp-gate branch (sequencer.cpp
lines 60-91; the gate is active when bypass_mh_orderer and
synchronized_batching are both set).  usesDdr reflects the
LOCK_MANAGER_DDR compile-time switch: without DDR a past txn is restarted
(status ABORTED, reason restarted) before being enqueued. -/
def processForwardTxn (usesDdr : Bool) (now : Int) (b : FutureBuffer)
    (t : SeqTxn) : GateOutcome :=
  let dev : Int := t.timestamp - now
  if dev ≤ 0 then
    GateOutcome.enqueue
      (if usesDdr then t
       else { t with status := TxnStatus.ABORTED, abort_reason := "restarted" })
  else
    let r := bufferFutureTxn b t
    GateOutcome.buffered r.1 r.2

theorem assocFind_append {β : Type} (l₁ l₂ : List (Nat × β)) (k : Nat) :
    assocFind (l₁ ++ l₂) k =
      match assocFind l₁ k with
      | some v => some v
      | none => assocFind l₂ k := by
  induction l₁ with
  | nil => simp [assocFind]
  | cons kv rest ih =>
    by_cases h : kv.1 = k <;> simp [assocFind, h, ih]

theorem assocFind_filter_ne {β : Type} (l : List (Nat × β)) (k : Nat) :
    assocFind (l.filter (fun kv => kv.1 ≠ k)) k = none := by
  induction l with
  | nil => simp [assocFind]
  | cons kv rest ih =>
    by_cases h : kv.1 = k
    · simpa [List.filter, h] using ih
    · simpa [List.filter, h, assocFind] using ih

theorem assocFind_filter_ne_other {β : Type} (l : List (Nat × β)) (k q : Nat)
    (h : q ≠ k) :
    assocFind (l.filter (fun kv => kv.1 ≠ k)) q = assocFind l q := by
  induction l with
  | nil => simp
  | cons kv rest ih =>
    rw [List.filter_cons]
    by_cases hk : kv.1 = k
    · rw [if_neg (by simp [hk])]
      have hq : ¬ kv.1 = q := by omega
      rw [ih]
      simp [assocFind, hq]
    · rw [if_pos (by simp [hk])]
      by_cases hq : kv.1 = q
      · simp [assocFind, hq]
      · simp only [assocFind]
        rw [if_neg hq, if_neg hq]
        exact ih

theorem assocFind_eq_none_iff {β : Type} (l : List (Nat × β)) (q : Nat) :
    assocFind l q = none ↔ q ∉ l.map (·.1) := by
  induction l with
  | nil => simp [assocFind]
  | cons kv rest ih =>
    by_cases h : kv.1 = q <;> simp [assocFind, h, ih]
    omega

theorem insertAll_builds {T : Type} :
    ∀ (entries : List (Nat × T)) (l : AsyncLog T),
      (∀ pr ∈ entries, l.next ≤ pr.1 ∧ assocFind l.log pr.1 = none) →
      (entries.map (·.1)).Nodup →
      insertAll l entries = Except.ok { log := l.log ++ entries, next := l.next }
  | [], l, _, _ => by simp [insertAll]
  | (p, x) :: rest, l, h, hnd => by
    have hp := h (p, x) (List.mem_cons_self _ _)
    have hins : l.insert p x = Except.ok { l with log := l.log ++ [(p, x)] } := by
      have : ¬ p < l.next := by omega
      simp [AsyncLog.insert, this, hp.2]
    have hrest :
        insertAll { l with log := l.log ++ [(p, x)] } rest =
          Except.ok { log := (l.log ++ [(p, x)]) ++ rest, next := l.next } := by
      apply insertAll_builds rest
      · intro pr hpr
        have hpr' := h pr (List.mem_cons_of_mem _ hpr)
        refine ⟨hpr'.1, ?_⟩
        rw [assocFind_append, hpr'.2]
        have hne : pr.1 ≠ p := by
          have := hnd
          simp only [List.map_cons, List.nodup_cons] at this
          intro hEq
          exact this.1 (hEq ▸ List.mem_map_of_mem (·.1) hpr)
        have hne' : ¬ (p = pr.1) := fun hEq => hne hEq.symm
        simp [assocFind, hne']
      · simpa using hnd.sublist (List.sublist_cons_self _ _)
    rw [insertAll, hins]
    simpa [List.append_assoc] using hrest

theorem drain_run {T : Type} :
    ∀ (j : Nat) (L : List (Nat × T)) (n : Nat),
      n < two32 → n + j ≤ two32 →
      (∀ i, i < j → (assocFind L (n + i)).isSome) →
      ((AsyncLog.drain j { log := L, next := n }).1.length = j ∧
       (∀ i, i < j →
         (AsyncLog.drain j { log := L, next := n }).1.get? i =
           (assocFind L (n + i)).map (fun x => (n + i, x))) ∧
       (AsyncLog.drain j { log := L, next := n }).2.next = (n + j) % two32 ∧
       (∀ p, assocFind (AsyncLog.drain j { log := L, next := n }).2.log p =
         if n ≤ p ∧ p < n + j then none else assocFind L p))
  | 0, L, n => by
    intro hn _ _
    refine ⟨rfl, by omega, ?_, ?_⟩
    · simpa using (Nat.mod_eq_of_lt hn).symm
    · intro p
      by_cases hc : n ≤ p ∧ p < n + 0
      · omega
      · simp only [AsyncLog.drain]
        rw [if_neg hc]
  | j + 1, L, n => by
    intro hn hle hpres
    have h0 : (assocFind L n).isSome := by simpa using hpres 0 (by omega)
    obtain ⟨item, hitem⟩ := Option.isSome_iff_exists.mp h0
    have hstep :
        AsyncLog.drain (j + 1) { log := L, next := n } =
          ((n, item) :: (AsyncLog.drain j
              { log := L.filter (fun kv => kv.1 ≠ n), next := (n + 1) % two32 }).1,
            (AsyncLog.drain j
              { log := L.filter (fun kv => kv.1 ≠ n), next := (n + 1) % two32 }).2) := by
      simp [AsyncLog.drain, AsyncLog.nextItem, hitem]
    by_cases hwrap : n + 1 < two32
    · have hmod : (n + 1) % two32 = n + 1 := Nat.mod_eq_of_lt hwrap
      have ih := drain_run j (L.filter (fun kv => kv.1 ≠ n)) (n + 1) hwrap (by omega)
        (by
          intro i hi
          rw [assocFind_filter_ne_other _ _ _ (by omega)]
          have : n + 1 + i = n + (i + 1) := by omega
          rw [this]
          exact hpres (i + 1) (by omega))
      rw [hmod] at hstep
      obtain ⟨ihlen, ihget, ihnext, ihlog⟩ := ih
      refine ⟨?_, ?_, ?_, ?_⟩
      · rw [hstep]; simpa using ihlen
      · intro i hi
        rw [hstep]
        match i with
        | 0 => simp [hitem]
        | i' + 1 =>
          have := ihget i' (by omega)
          rw [assocFind_filter_ne_other _ _ _ (by omega)] at this
          have harith : n + 1 + i' = n + (i' + 1) := by omega
          rw [harith] at this
          simpa using this
      · rw [hstep]
        have harith : n + 1 + j = n + (j + 1) := by omega
        rw [← harith]
        exact ihnext
      · intro p
        rw [hstep]
        have hl := ihlog p
        by_cases hp : p = n
        · have hcond : ¬ (n + 1 ≤ p ∧ p < n + 1 + j) := by omega
          rw [hl, if_neg hcond]
          have hfil : assocFind (L.filter (fun kv => kv.1 ≠ n)) p = none := by
            rw [hp]; exact assocFind_filter_ne L n
          rw [hfil]
          have hcond2 : n ≤ p ∧ p < n + (j + 1) := by omega
          rw [if_pos hcond2]
        · rw [hl, assocFind_filter_ne_other _ _ _ hp]
          have hiff : (n + 1 ≤ p ∧ p < n + 1 + j) ↔ (n ≤ p ∧ p < n + (j + 1)) := by omega
          by_cases hc : n ≤ p ∧ p < n + (j + 1)
          · rw [if_pos (hiff.mpr hc), if_pos hc]
          · rw [if_neg (fun hh => hc (hiff.mp hh)), if_neg hc]
    · have hj : j = 0 := by omega
      subst hj
      have hmod : (n + 1) % two32 = 0 := by
        have : n + 1 = two32 := by omega
        simp [this]
      rw [hmod] at hstep
      refine ⟨?_, ?_, ?_, ?_⟩
      · rw [hstep]; simp [AsyncLog.drain]
      · intro i hi
        rw [hstep]
        match i with
        | 0 => simp [hitem, AsyncLog.drain]
      · rw [hstep]
        simp [AsyncLog.drain, hmod]
      · intro p
        rw [hstep]
        simp only [AsyncLog.drain]
        by_cases hp : p = n
        · have hc : n ≤ p ∧ p < n + 1 := by omega
          rw [if_pos hc, hp]
          exact assocFind_filter_ne L n
        · have hc : ¬ (n ≤ p ∧ p < n + 1) := by omega
          rw [if_neg hc]
          exact assocFind_filter_ne_other _ _ _ hp

/-- C5: inserting items at distinct positions at or past start and then
repeatedly dequeuing yields the items paired with the consecutive
positions start, start+1, ..., each item being exactly the one inserted at
its position; and once the run of consecutive positions is exhausted the
iteration stalls because the next position is absent. -/
theorem async_log_in_order {T : Type} (entries : List (Nat × T)) (start j : Nat)
    (hstart : start < two32)
    (hpos : ∀ pr ∈ entries, start ≤ pr.1 ∧ pr.1 < two32)
    (hnodup : (entries.map (·.1)).Nodup)
    (hrun : ∀ i, i < j → (assocFind entries (start + i)).isSome) :
    insertAll (AsyncLog.start T start) entries =
      Except.ok { log := entries, next := start } ∧
    (AsyncLog.drain j { log := entries, next := start }).1.length = j ∧
    (∀ i, i < j →
      (AsyncLog.drain j { log := entries, next := start }).1.get? i =
        (assocFind entries (start + i)).map (fun x => (start + i, x))) ∧
    (start + j ∉ entries.map (·.1) →
      (AsyncLog.drain j { log := entries, next := start }).2.hasNext = false) := by
  have hbound : start + j ≤ two32 := by
    match j with
    | 0 => omega
    | j' + 1 =>
      have := hrun j' (by omega)
      obtain ⟨x, hx⟩ := Option.isSome_iff_exists.mp this
      have hmem : (start + j') ∈ entries.map (·.1) := by
        by_contra hno
        rw [(assocFind_eq_none_iff entries (start + j')).mpr hno] at hx
        exact Option.noConfusion hx
      obtain ⟨pr, hpr, hpr2⟩ := List.mem_map.mp hmem
      have := (hpos pr hpr).2
      omega
  obtain ⟨hlen, hget, hnext, hlog⟩ := drain_run j entries start hstart hbound hrun
  refine ⟨?_, hlen, hget, ?_⟩
  · exact insertAll_builds entries (AsyncLog.start T start)
      (fun pr hpr => ⟨(hpos pr hpr).1, rfl⟩) hnodup
  · intro habs
    unfold AsyncLog.hasNext
    rw [hnext, hlog]
    by_cases hw : start + j < two32
    · rw [Nat.mod_eq_of_lt hw]
      have hcond : ¬ (start ≤ start + j ∧ start + j < start + j) := by omega
      simp only [hcond, if_false]
      rw [(assocFind_eq_none_iff entries (start + j)).mpr habs]
      rfl
    · have heq : start + j = two32 := by omega
      have hz : (start + j) % two32 = 0 := by simp [heq]
      rw [hz]
      by_cases h0 : start = 0
      · have : start ≤ 0 ∧ 0 < start + j := by omega
        simp [this]
      · have hcond : ¬ (start ≤ 0 ∧ 0 < start + j) := by omega
        simp only [hcond, if_false]
        rw [(assocFind_eq_none_iff entries 0).mpr ?_]
        · rfl
        · intro hmem
          obtain ⟨pr, hpr, hpr2⟩ := List.mem_map.mp hmem
          have := (hpos pr hpr).1
          omega

theorem async_log_in_order_witness :
    (AsyncLog.drain 1 { log := [(0, (10 : Nat)), (2, 12), (3, 13)], next := 0 }).1.get? 0 =
        some (0, 10) ∧
    (AsyncLog.drain 1 { log := [(0, (10 : Nat)), (2, 12), (3, 13)], next := 0 }).2.hasNext =
        false := by
  obtain ⟨_, _, hget, hstall⟩ :=
    async_log_in_order [(0, (10 : Nat)), (2, 12), (3, 13)] 0 1 (by decide)
      (by decide) (by decide) (by decide)
  exact ⟨by simpa using hget 0 (by decide), hstall (by decide)⟩

/-- C7: AcquireWriteLock returns exactly the waiters the caller must block
on and then claims the tail: with no pending readers it returns the
previous write requester alone (or nothing), otherwise exactly the pending
readers and not the previous write requester; the reader list is cleared
and the caller becomes the write requester. -/
theorem acquire_write_lock_contract (q : LockQueueTail) (t : TxnId) :
    ((q.acquireWriteLock t).1.write_lock_requester = some t) ∧
    ((q.acquireWriteLock t).1.read_lock_requesters = []) ∧
    (q.read_lock_requesters = [] →
      (q.acquireWriteLock t).2 = q.write_lock_requester.toList) ∧
    (q.read_lock_requesters ≠ [] →
      (q.acquireWriteLock t).2 = q.read_lock_requesters ∧
      ∀ w, q.write_lock_requester = some w → w ∉ q.read_lock_requesters →
        w ∉ (q.acquireWriteLock t).2) := by
  refine ⟨rfl, rfl, ?_, ?_⟩
  · intro h
    cases q with
    | mk wr rr =>
      cases wr <;> simp_all [LockQueueTail.acquireWriteLock, Option.toList]
  · intro h
    have hne : q.read_lock_requesters.isEmpty = false := by
      cases hrr : q.read_lock_requesters with
      | nil => exact absurd hrr h
      | cons a l => simp [hrr]
    constructor
    · simp [LockQueueTail.acquireWriteLock, hne]
    · intro w hw hnot
      simp [LockQueueTail.acquireWriteLock, hne]
      exact hnot

theorem acquire_write_lock_contract_witness :
    ((LockQueueTail.mk (some 7) []).acquireWriteLock 9).2 = [7] := by
  have h := (acquire_write_lock_contract (LockQueueTail.mk (some 7) []) 9).2.2.1 rfl
  simpa [Option.toList] using h

theorem c8_fnv1a_counterexample :
    partitionOfKeyHash 8 4 [97] ≠
      fnv1aSpec (([97] : List Nat).take (min ([97] : List Nat).length 8)) % 4 := by
  decide

/-- C8 (amended): in hash-partitioning mode the partition of a key is the
code's FNV hash — the 32-bit variant with offset basis 0x811c9dc5 and
prime 0x01000193 folded modulo 2^32 that multiplies before xoring each
byte (FNV-1, not FNV-1a) — of the first min(len, N) bytes of the key,
reduced modulo the number of partitions. -/
theorem partition_of_key_hash_eq (num_bytes num_partitions : Nat)
    (key : List Nat) :
    partitionOfKeyHash num_bytes num_partitions key =
      FNVHash (key.take (min key.length num_bytes)) % num_partitions := by
  unfold partitionOfKeyHash
  by_cases h : num_bytes ≥ key.length
  · simp [h, Nat.min_eq_left h, List.take_length]
  · have h' : key.length ≥ num_bytes := Nat.le_of_not_le h
    simp [h, Nat.min_eq_right h']

/-- C9: with the timestamp gate active, a past txn (deviation at most 0)
is enqueued immediately — unmodified under DDR, restarted with status
ABORTED and reason restarted otherwise — and a future txn is inserted
into the batcher's min-heap with a signal sent exactly when the insertion
made the heap's minimum earlier than before. -/
theorem sequencer_timestamp_gate (usesDdr : Bool) (now : Int)
    (b : FutureBuffer) (t : SeqTxn) :
    (t.timestamp - now ≤ 0 →
      processForwardTxn usesDdr now b t =
        GateOutcome.enqueue
          (if usesDdr then t
           else { t with status := TxnStatus.ABORTED,
                         abort_reason := "restarted" })) ∧
    (0 < t.timestamp - now →
      ∃ sig, processForwardTxn usesDdr now b t =
          GateOutcome.buffered { heap := b.heap ++ [t] } sig ∧
        (sig = true ↔ ∀ m, b.minTimestamp = some m → t.timestamp < m)) := by
  constructor
  · intro h
    simp [processForwardTxn, h]
  · intro h
    have h' : ¬ t.timestamp - now ≤ 0 := by omega
    refine ⟨(bufferFutureTxn b t).2, ?_, ?_⟩
    · simp [processForwardTxn, h', bufferFutureTxn]
    · cases hm : b.minTimestamp with
      | none => simp [bufferFutureTxn, hm]
      | some m => simp [bufferFutureTxn, hm]

theorem sequencer_timestamp_gate_witness :
    processForwardTxn true 0 { heap := [] }
        { id := 1, timestamp := 5 } =
      GateOutcome.buffered { heap := [{ id := 1, timestamp := 5 }] } true := by
  obtain ⟨sig, h1, h2⟩ :=
    (sequencer_timestamp_gate true 0 { heap := [] }
      { id := 1, timestamp := 5 }).2 (by decide)
  have hs : sig = true := by
    apply h2.mpr
    intro m hm
    simp [FutureBuffer.minTimestamp] at hm
  rw [hs] at h1
  simpa using h1

/-- C10: ReleaseLocks on a txn id absent from the TxnInfoTable returns the
empty list and leaves the state untouched, taking the early-return branch
rather than the fatal check, which is only reached for present txns. -/
theorem release_locks_missing_txn (s : LMState) (id : TxnId)
    (h : lookupTxn s.txn_info id = none) :
    releaseLocks s id = some (s, []) := by
  simp [releaseLocks, h]

theorem release_locks_missing_txn_witness :
    releaseLocks {} 42 = some ({}, []) :=
  release_locks_missing_txn {} 42 rfl

theorem c6_wraparound_counterexample :
    ((AsyncLog.start Nat 4294967295).insert 4294967295 0 =
      Except.ok { log := [(4294967295, 0)], next := 4294967295 }) ∧
    (AsyncLog.nextItem { log := [(4294967295, (0 : Nat))], next := 4294967295 } =
      Except.ok ((4294967295, 0), { log := [], next := 0 })) ∧
    (({ log := [], next := 0 } : AsyncLog Nat).next <
      ({ log := [(4294967295, (0 : Nat))], next := 4294967295 } : AsyncLog Nat).next) := by
  refine ⟨?_, ?_, ?_⟩
  · rfl
  · rfl
  · decide

/-- C6 (amended): Insert below next is a silent no-op, Insert at an
occupied position at or above next fails without modifying the log, and
otherwise the item is stored; a successful Next produces the item at the
current next position, removes it, and advances next by one modulo 2^32 —
so next is monotonic, and each position is produced at most once, as long
as the uint32 counter does not wrap. -/
theorem async_log_contract {T : Type} (l : AsyncLog T) (p : Nat) (x : T) :
    (p < l.next → l.insert p x = Except.ok l) ∧
    (¬ p < l.next → (assocFind l.log p).isSome →
      l.insert p x = Except.error "Log position has already been taken") ∧
    (¬ p < l.next → assocFind l.log p = none →
      l.insert p x = Except.ok { l with log := l.log ++ [(p, x)] }) ∧
    (∀ r, l.nextItem = Except.ok r →
      r.1.1 = l.next ∧
      assocFind l.log l.next = some r.1.2 ∧
      r.2.next = (l.next + 1) % two32 ∧
      assocFind r.2.log l.next = none ∧
      (l.next + 1 < two32 → l.next < r.2.next)) := by
  refine ⟨?_, ?_, ?_, ?_⟩
  · intro h
    simp [AsyncLog.insert, h]
  · intro h hocc
    simp [AsyncLog.insert, h, hocc]
  · intro h hfree
    simp [AsyncLog.insert, h, hfree]
  · intro r hr
    unfold AsyncLog.nextItem at hr
    cases hf : assocFind l.log l.next with
    | none => rw [hf] at hr; exact absurd hr (by simp)
    | some item =>
      rw [hf] at hr
      have hr' := Except.ok.inj hr
      subst hr'
      refine ⟨rfl, rfl, rfl, assocFind_filter_ne l.log l.next, ?_⟩
      intro hll
      have : (l.next + 1) % two32 = l.next + 1 := Nat.mod_eq_of_lt hll
      simp only [this]
      omega

theorem async_log_contract_witness :
    AsyncLog.insert ({ log := [], next := 5 } : AsyncLog Nat) 3 7 =
      Except.ok { log := [], next := 5 } :=
  (async_log_contract { log := [], next := 5 } 3 7).1 (by decide)

theorem lookup_updateTxn : ∀ (tbl : TxnTable) (k : TxnId) (f : TxnInfo → TxnInfo) (j : TxnId),
    lookupTxn (updateTxn tbl k f) j =
      if j = k then (lookupTxn tbl j).map f else lookupTxn tbl j
  | [], k, f, j => by
    by_cases h : j = k <;> simp [lookupTxn, assocFind, updateTxn, h]
  | kv :: rest, k, f, j => by
    have ih := lookup_updateTxn rest k f j
    simp only [lookupTxn, updateTxn, List.map_cons] at ih ⊢
    by_cases h1 : kv.1 = k
    · rw [if_pos h1]
      by_cases h2 : kv.1 = j
      · have h3 : j = k := h2.symm.trans h1
        simp [assocFind, h2, h3]
      · have h2' : (kv.1, f kv.2).1 ≠ j := h2
        simp only [assocFind, if_neg h2', if_neg h2]
        exact ih
    · rw [if_neg h1]
      by_cases h2 : kv.1 = j
      · have h3 : ¬ j = k := fun hh => h1 (h2.trans hh)
        simp [assocFind, h2, h3]
      · simp only [assocFind, if_neg h2]
        exact ih

theorem keysOf_updateTxn (tbl : TxnTable) (k : TxnId) (f : TxnInfo → TxnInfo) :
    keysOf (updateTxn tbl k f) = keysOf tbl := by
  simp only [keysOf, updateTxn, List.map_map]
  congr 1
  funext kv
  by_cases h : kv.1 = k <;> simp [h]

theorem lookup_eraseTxn (tbl : TxnTable) (k j : TxnId) :
    lookupTxn (eraseTxn tbl k) j = if j = k then none else lookupTxn tbl j := by
  by_cases h : j = k
  · rw [if_pos h, h]
    exact assocFind_filter_ne tbl k
  · rw [if_neg h]
    exact assocFind_filter_ne_other tbl k j h

theorem emplace_of_present (tbl : TxnTable) (k : TxnId)
    (h : (lookupTxn tbl k).isSome) : emplaceTxn tbl k = tbl := by
  simp [emplaceTxn, h]

theorem lookupTxn_def (tbl : TxnTable) (j : TxnId) :
    lookupTxn tbl j = assocFind tbl j := rfl

theorem lookup_emplace_absent (tbl : TxnTable) (k j : TxnId)
    (h : lookupTxn tbl k = none) :
    lookupTxn (emplaceTxn tbl k) j =
      if j = k then some { id := k } else lookupTxn tbl j := by
  have he : emplaceTxn tbl k = tbl ++ [(k, { id := k })] := by
    simp [emplaceTxn, h]
  rw [he, lookupTxn_def, assocFind_append]
  rw [lookupTxn_def] at h
  by_cases hj : j = k
  · rw [hj, h]
    simp [assocFind, hj]
  · cases hl : assocFind tbl j with
    | some v => simp [lookupTxn_def, hl, hj]
    | none =>
      have hne : ¬ (k = j) := fun hh => hj hh.symm
      simp [lookupTxn_def, hl, assocFind, hne, hj]

theorem lookup_foldl_decNwf : ∀ (ds : List TxnId) (tbl : TxnTable) (j : TxnId),
    lookupTxn (ds.foldl decNwf tbl) j =
      (lookupTxn tbl j).map (fun t =>
        { t with num_waiting_for := t.num_waiting_for - (ds.count j : Int) })
  | [], tbl, j => by
    cases h : lookupTxn tbl j <;> simp [h]
  | d :: ds, tbl, j => by
    have ih := lookup_foldl_decNwf ds (decNwf tbl d) j
    show lookupTxn (ds.foldl decNwf (decNwf tbl d)) j = _
    rw [ih]
    unfold decNwf
    rw [lookup_updateTxn]
    by_cases h : j = d
    · rw [if_pos h]
      cases hl : lookupTxn tbl j with
      | none => simp
      | some t =>
        simp only [Option.map_map, Option.map_some']
        have hc : ((d :: ds).count j : Int) = (ds.count j : Int) + 1 := by
          rw [List.count_cons]
          simp [h]
        rw [hc]
        congr 1
        simp only [TxnInfo.mk.injEq, true_and, and_true]
        omega
    · rw [if_neg h]
      cases hl : lookupTxn tbl j with
      | none => simp
      | some t =>
        simp only [Option.map_map, Option.map_some']
        have hc : ((d :: ds).count j : Int) = (ds.count j : Int) := by
          rw [List.count_cons]
          have : ¬ (d = j) := fun hh => h hh.symm
          simp [this]
        rw [hc]

theorem rewriteSlots_decs (ssc : List TxnId) :
    ∀ (ws : List TxnId) (pend : Option TxnId),
      (rewriteSlots ssc ws pend).decs = ws.filter (fun w => decide (w ∈ ssc))
  | [], pend => by cases pend <;> simp [rewriteSlots]
  | w :: ws, pend => by
    by_cases h : w ∈ ssc
    · cases pend <;> simp [rewriteSlots, h, rewriteSlots_decs ssc ws]
    · simp [rewriteSlots, h, rewriteSlots_decs ssc ws]

theorem rewriteSlots_pend_input_none (ssc : List TxnId) :
    ∀ (ws : List TxnId), (rewriteSlots ssc ws none).pend = none
  | [] => by simp [rewriteSlots]
  | w :: ws => by
    by_cases h : w ∈ ssc <;>
      simp [rewriteSlots, h, rewriteSlots_pend_input_none ssc ws]

theorem rewriteSlots_pend_of_any (ssc : List TxnId) :
    ∀ (ws : List TxnId) (pend : Option TxnId),
      ws.any (fun w => decide (w ∈ ssc)) = true →
      (rewriteSlots ssc ws pend).pend = none
  | [], _ => by intro hany; simp at hany
  | w :: ws, pend => by
    intro hany
    by_cases h : w ∈ ssc
    · cases pend <;> simp [rewriteSlots, h, rewriteSlots_pend_input_none ssc ws]
    · have : ws.any (fun w => decide (w ∈ ssc)) = true := by
        simpa [h] using hany
      simp [rewriteSlots, h, rewriteSlots_pend_of_any ssc ws pend this]

theorem rewriteSlots_forall2 (ssc : List TxnId) :
    ∀ (ws : List TxnId) (pend : Option TxnId),
      List.Forall₂ (fun o n =>
        (o ∉ ssc → n = o) ∧ (o ∈ ssc → n = kSentinelTxnId ∨ some n = pend))
        ws (rewriteSlots ssc ws pend).slots
  | [], pend => by simp [rewriteSlots]
  | w :: ws, pend => by
    by_cases h : w ∈ ssc
    · cases pend with
      | none =>
        simp only [rewriteSlots, h, if_pos]
        exact List.Forall₂.cons ⟨fun hc => absurd h hc, fun _ => Or.inl rfl⟩
          (rewriteSlots_forall2 ssc ws none)
      | some n =>
        simp only [rewriteSlots, h, if_pos]
        refine List.Forall₂.cons ⟨fun hc => absurd h hc, fun _ => Or.inr rfl⟩ ?_
        exact (rewriteSlots_forall2 ssc ws none).imp
          (fun {o nn} hp => ⟨hp.1, fun ho => Or.inl ((hp.2 ho).resolve_right
            (fun hh => Option.noConfusion hh))⟩)
    · simp only [rewriteSlots, h, if_neg, if_false]
      exact List.Forall₂.cons ⟨fun _ => rfl, fun hc => absurd hc h⟩
        (rewriteSlots_forall2 ssc ws pend)

theorem rewriteSlots_filter_input_none (ssc : List TxnId)
    (h0 : kSentinelTxnId ∉ ssc) :
    ∀ (ws : List TxnId),
      ((rewriteSlots ssc ws none).slots.filter (fun y => decide (y ∈ ssc))) = []
  | [] => by simp [rewriteSlots]
  | w :: ws => by
    by_cases h : w ∈ ssc
    · simp [rewriteSlots, h, h0, rewriteSlots_filter_input_none ssc h0 ws]
    · simp [rewriteSlots, h, rewriteSlots_filter_input_none ssc h0 ws]

theorem rewriteSlots_filter_some (ssc : List TxnId)
    (h0 : kSentinelTxnId ∉ ssc) (n : TxnId) (hn : n ∈ ssc) :
    ∀ (ws : List TxnId),
      ((rewriteSlots ssc ws (some n)).slots.filter (fun y => decide (y ∈ ssc))) =
        if ws.any (fun w => decide (w ∈ ssc)) then [n] else []
  | [] => by simp [rewriteSlots]
  | w :: ws => by
    by_cases h : w ∈ ssc
    · simp [rewriteSlots, h, hn, rewriteSlots_filter_input_none ssc h0 ws]
    · simp [rewriteSlots, h, rewriteSlots_filter_some ssc h0 n hn ws]

theorem lookup_resolveMember (ssc : List TxnId) (tbl : TxnTable) (x : TxnId)
    (nxt : Option TxnId) (info : TxnInfo) (hx : lookupTxn tbl x = some info)
    (j : TxnId) :
    lookupTxn (resolveMember ssc tbl x nxt) j =
      (lookupTxn tbl j).map (fun t =>
        { t with
            waited_by :=
              if j = x then (rewriteSlots ssc info.waited_by nxt).slots
              else t.waited_by,
            num_waiting_for := t.num_waiting_for +
              (match nxt with
               | some n =>
                 if (rewriteSlots ssc info.waited_by nxt).pend = none ∧ j = n
                 then (1 : Int) else 0
               | none => 0) -
              ((rewriteSlots ssc info.waited_by nxt).decs.count j : Int) }) := by
  cases nxt with
  | none =>
    have hres : resolveMember ssc tbl x none =
        (rewriteSlots ssc info.waited_by none).decs.foldl decNwf
          (setWaitedBy tbl x (rewriteSlots ssc info.waited_by none).slots) := by
      unfold resolveMember
      rw [hx]
    rw [hres]
    unfold setWaitedBy
    by_cases hj : j = x
    · cases hl : lookupTxn tbl j <;>
        simp [lookup_foldl_decNwf, lookup_updateTxn, hl, eq_true hj,
          TxnInfo.mk.injEq] <;> omega
    · cases hl : lookupTxn tbl j <;>
        simp [lookup_foldl_decNwf, lookup_updateTxn, hl, eq_false hj,
          TxnInfo.mk.injEq] <;> omega
  | some n =>
    have hres : resolveMember ssc tbl x (some n) =
        (rewriteSlots ssc info.waited_by (some n)).decs.foldl decNwf
          (if (rewriteSlots ssc info.waited_by (some n)).pend = none
           then incNwf (setWaitedBy tbl x (rewriteSlots ssc info.waited_by (some n)).slots) n
           else setWaitedBy tbl x (rewriteSlots ssc info.waited_by (some n)).slots) := by
      unfold resolveMember
      rw [hx]
    rw [hres]
    rcases hp : (rewriteSlots ssc info.waited_by (some n)).pend with _ | m
    · rw [if_pos rfl]
      unfold incNwf setWaitedBy
      by_cases hjn : j = n
      · by_cases hj : j = x
        · cases hl : lookupTxn tbl j <;>
            simp [lookup_foldl_decNwf, lookup_updateTxn, hl, eq_true hjn,
              eq_true hj, TxnInfo.mk.injEq] <;> omega
        · cases hl : lookupTxn tbl j <;>
            simp [lookup_foldl_decNwf, lookup_updateTxn, hl, eq_true hjn,
              eq_false hj, TxnInfo.mk.injEq] <;> omega
      · by_cases hj : j = x
        · cases hl : lookupTxn tbl j <;>
            simp [lookup_foldl_decNwf, lookup_updateTxn, hl, eq_false hjn,
              eq_true hj, TxnInfo.mk.injEq] <;> omega
        · cases hl : lookupTxn tbl j <;>
            simp [lookup_foldl_decNwf, lookup_updateTxn, hl, eq_false hjn,
              eq_false hj, TxnInfo.mk.injEq] <;> omega
    · rw [if_neg (by simp)]
      unfold setWaitedBy
      by_cases hj : j = x
      · cases hl : lookupTxn tbl j <;>
          simp [lookup_foldl_decNwf, lookup_updateTxn, hl, eq_true hj,
            TxnInfo.mk.injEq] <;> omega
      · cases hl : lookupTxn tbl j <;>
          simp [lookup_foldl_decNwf, lookup_updateTxn, hl, eq_false hj,
            TxnInfo.mk.injEq] <;> omega

theorem resolveMember_absent (ssc : List TxnId) (tbl : TxnTable) (x : TxnId)
    (nxt : Option TxnId) (h : lookupTxn tbl x = none) :
    resolveMember ssc tbl x nxt = tbl := by
  unfold resolveMember
  rw [h]

theorem resolveMember_isSome (ssc : List TxnId) (tbl : TxnTable) (x : TxnId)
    (nxt : Option TxnId) (j : TxnId) :
    (lookupTxn (resolveMember ssc tbl x nxt) j).isSome =
      (lookupTxn tbl j).isSome := by
  cases hx : lookupTxn tbl x with
  | none => rw [resolveMember_absent ssc tbl x nxt hx]
  | some info =>
    rw [lookup_resolveMember ssc tbl x nxt info hx j]
    cases lookupTxn tbl j <;> rfl

theorem resolveMember_waited_by_other (ssc : List TxnId) (tbl : TxnTable)
    (x : TxnId) (nxt : Option TxnId) (j : TxnId) (hj : j ≠ x) :
    (lookupTxn (resolveMember ssc tbl x nxt) j).map (·.waited_by) =
      (lookupTxn tbl j).map (·.waited_by) := by
  cases hx : lookupTxn tbl x with
  | none => rw [resolveMember_absent ssc tbl x nxt hx]
  | some info =>
    rw [lookup_resolveMember ssc tbl x nxt info hx j]
    cases lookupTxn tbl j with
    | none => rfl
    | some t => simp [eq_false hj]

theorem resolveMember_unarrived (ssc : List TxnId) (tbl : TxnTable)
    (x : TxnId) (nxt : Option TxnId) (j : TxnId) :
    (lookupTxn (resolveMember ssc tbl x nxt) j).map (·.unarrived_lock_requests) =
      (lookupTxn tbl j).map (·.unarrived_lock_requests) := by
  cases hx : lookupTxn tbl x with
  | none => rw [resolveMember_absent ssc tbl x nxt hx]
  | some info =>
    rw [lookup_resolveMember ssc tbl x nxt info hx j]
    cases lookupTxn tbl j <;> simp

theorem resolveChain_isSome (ssc : List TxnId) :
    ∀ (l : List TxnId) (tbl : TxnTable) (j : TxnId),
      (lookupTxn (resolveChain ssc tbl l) j).isSome = (lookupTxn tbl j).isSome
  | [], _, _ => rfl
  | y :: rest, tbl, j => by
    show (lookupTxn (resolveMember ssc (resolveChain ssc tbl rest) y rest.head?) j).isSome = _
    rw [resolveMember_isSome, resolveChain_isSome ssc rest tbl j]

theorem resolveChain_unarrived (ssc : List TxnId) :
    ∀ (l : List TxnId) (tbl : TxnTable) (j : TxnId),
      (lookupTxn (resolveChain ssc tbl l) j).map (·.unarrived_lock_requests) =
        (lookupTxn tbl j).map (·.unarrived_lock_requests)
  | [], _, _ => rfl
  | y :: rest, tbl, j => by
    show (lookupTxn (resolveMember ssc (resolveChain ssc tbl rest) y rest.head?) j).map
        (·.unarrived_lock_requests) = _
    rw [resolveMember_unarrived, resolveChain_unarrived ssc rest tbl j]

theorem resolveChain_waited_by_outside (ssc : List TxnId) :
    ∀ (l : List TxnId) (tbl : TxnTable) (j : TxnId), j ∉ l →
      (lookupTxn (resolveChain ssc tbl l) j).map (·.waited_by) =
        (lookupTxn tbl j).map (·.waited_by)
  | [], _, _, _ => rfl
  | y :: rest, tbl, j, hj => by
    have hjy : j ≠ y := fun hh => hj (hh ▸ List.mem_cons_self y rest)
    have hjr : j ∉ rest := fun hh => hj (List.mem_cons_of_mem y hh)
    show (lookupTxn (resolveMember ssc (resolveChain ssc tbl rest) y rest.head?) j).map
        (·.waited_by) = _
    rw [resolveMember_waited_by_other ssc _ y rest.head? j hjy,
      resolveChain_waited_by_outside ssc rest tbl j hjr]

theorem resolveChain_member_slots (ssc : List TxnId) :
    ∀ (l : List TxnId) (tbl : TxnTable), l.Nodup →
      (∀ m ∈ l, (lookupTxn tbl m).isSome) →
      ∀ x ∈ l, ∃ info info', lookupTxn tbl x = some info ∧
        lookupTxn (resolveChain ssc tbl l) x = some info' ∧
        info'.waited_by = (rewriteSlots ssc info.waited_by (succAfter l x)).slots ∧
        info'.unarrived_lock_requests = info.unarrived_lock_requests
  | y :: rest, tbl, hnd, hpres, x, hx => by
    have hynotr : y ∉ rest := (List.nodup_cons.mp hnd).1
    have hndr : rest.Nodup := (List.nodup_cons.mp hnd).2
    rcases List.mem_cons.mp hx with hxy | hxr
    · subst hxy
      obtain ⟨info, hinfo⟩ :=
        Option.isSome_iff_exists.mp (hpres x (List.mem_cons_self x rest))
      have hmid_some : (lookupTxn (resolveChain ssc tbl rest) x).isSome := by
        rw [resolveChain_isSome ssc rest tbl x, hinfo]; rfl
      obtain ⟨infoMid, hmid⟩ := Option.isSome_iff_exists.mp hmid_some
      have hwb : infoMid.waited_by = info.waited_by := by
        have := resolveChain_waited_by_outside ssc rest tbl x hynotr
        rw [hmid, hinfo] at this
        simpa using this
      have hun : infoMid.unarrived_lock_requests = info.unarrived_lock_requests := by
        have := resolveChain_unarrived ssc rest tbl x
        rw [hmid, hinfo] at this
        simpa using this
      have hfin := lookup_resolveMember ssc _ x rest.head? infoMid hmid x
      rw [hmid] at hfin
      simp only [Option.map_some'] at hfin
      refine ⟨info, _, hinfo, hfin, ?_, ?_⟩
      · simp only [succAfter, if_pos rfl]
        simp [hwb]
      · simp [hun]
    · have hxny : x ≠ y := fun hh => hynotr (hh ▸ hxr)
      obtain ⟨info, info', hinfo, hchain, hslots, hun⟩ :=
        resolveChain_member_slots ssc rest tbl hndr
          (fun m hm => hpres m (List.mem_cons_of_mem y hm)) x hxr
      cases hym : lookupTxn (resolveChain ssc tbl rest) y with
      | none =>
        refine ⟨info, info', hinfo, ?_, ?_, hun⟩
        · show lookupTxn (resolveMember ssc (resolveChain ssc tbl rest) y rest.head?) x = _
          rw [resolveMember_absent ssc _ y rest.head? hym]
          exact hchain
        · rw [hslots]
          simp [succAfter, hxny]
      | some infoY =>
        have hfin := lookup_resolveMember ssc _ y rest.head? infoY hym x
        rw [hchain] at hfin
        simp only [Option.map_some'] at hfin
        refine ⟨info, _, hinfo, hfin, ?_, ?_⟩
        · simp only [eq_false hxny, if_false]
          rw [hslots]
          simp [succAfter, hxny]
        · simp [hun]

theorem resolveChain_nwf (ssc : List TxnId) :
    ∀ (l : List TxnId) (tbl : TxnTable), l.Nodup →
      (∀ m ∈ l, (lookupTxn tbl m).isSome) →
      ∀ j, (∀ t ∈ l.tail, t ≠ j) →
      (lookupTxn (resolveChain ssc tbl l) j).map (·.num_waiting_for) =
        (lookupTxn tbl j).map (fun t =>
          t.num_waiting_for - ((l.map (fun x => intraOcc tbl ssc x j)).sum : Int))
  | [], tbl, _, _, j, _ => by
    cases h : lookupTxn tbl j <;> simp [resolveChain, h]
  | y :: rest, tbl, hnd, hpres, j, hj => by
    have hynotr : y ∉ rest := (List.nodup_cons.mp hnd).1
    obtain ⟨infoY0, hY0⟩ :=
      Option.isSome_iff_exists.mp (hpres y (List.mem_cons_self y rest))
    have hmid_some : (lookupTxn (resolveChain ssc tbl rest) y).isSome := by
      rw [resolveChain_isSome ssc rest tbl y, hY0]; rfl
    obtain ⟨infoY, hY⟩ := Option.isSome_iff_exists.mp hmid_some
    have hwbY : infoY.waited_by = infoY0.waited_by := by
      have := resolveChain_waited_by_outside ssc rest tbl y hynotr
      rw [hY, hY0] at this
      simpa using this
    have ih := resolveChain_nwf ssc rest tbl (List.nodup_cons.mp hnd).2
      (fun m hm => hpres m (List.mem_cons_of_mem y hm)) j
      (fun t ht => hj t (List.tail_subset rest ht))
    show (lookupTxn (resolveMember ssc (resolveChain ssc tbl rest) y rest.head?) j).map
        (·.num_waiting_for) = _
    rw [lookup_resolveMember ssc _ y rest.head? infoY hY j]
    cases hL : lookupTxn tbl j with
    | none =>
      have : lookupTxn (resolveChain ssc tbl rest) j = none := by
        have hs := resolveChain_isSome ssc rest tbl j
        rw [hL] at hs
        cases hc : lookupTxn (resolveChain ssc tbl rest) j
        · rfl
        · rw [hc] at hs; exact absurd hs (by simp)
      rw [this]
      rfl
    | some t0 =>
      have hmidj_some : (lookupTxn (resolveChain ssc tbl rest) j).isSome := by
        rw [resolveChain_isSome ssc rest tbl j, hL]; rfl
      obtain ⟨tMid, hMid⟩ := Option.isSome_iff_exists.mp hmidj_some
      rw [hMid] at ih ⊢
      rw [hL] at ih
      simp only [Option.map_some'] at ih ⊢
      have hnwfMid : tMid.num_waiting_for =
          t0.num_waiting_for - ((rest.map (fun x => intraOcc tbl ssc x j)).sum : Int) :=
        Option.some.inj ih
      have hinc :
          (match rest.head? with
           | some n =>
             if (rewriteSlots ssc infoY.waited_by rest.head?).pend = none ∧ j = n
             then (1 : Int) else 0
           | none => 0) = 0 := by
        cases hh : rest.head? with
        | none => rfl
        | some n =>
          have hn : n ∈ rest := by
            cases rest with
            | nil => exact absurd hh (by simp)
            | cons a r => simp at hh; simpa [hh] using List.mem_cons_self a r
          have : n ≠ j := hj n (by simpa using hn)
          have : ¬ (j = n) := fun hh2 => this hh2.symm
          simp [this]
      have hdec : ((rewriteSlots ssc infoY.waited_by rest.head?).decs.count j : Int) =
          (intraOcc tbl ssc y j : Int) := by
        rw [rewriteSlots_decs, hwbY]
        unfold intraOcc
        rw [hY0]
      congr 1
      rw [hinc, hdec, hnwfMid]
      simp only [List.map_cons, List.sum_cons]
      push_cast
      ring

theorem sorted_lt_nodup (l : List TxnId) (h : l.Sorted (· < ·)) : l.Nodup :=
  List.Pairwise.imp (fun hab => Nat.ne_of_lt hab) h

theorem insertionSort_of_sorted (l : List TxnId) (h : l.Sorted (· ≤ ·)) :
    l.insertionSort (· ≤ ·) = l :=
  List.eq_of_perm_of_sorted (List.perm_insertionSort _ l)
    (List.sorted_insertionSort _ l) h

theorem succAfter_mem_tail : ∀ (l : List TxnId) (x n : TxnId),
    succAfter l x = some n → n ∈ l.tail
  | [], x, n => by simp [succAfter]
  | y :: rest, x, n => by
    simp only [succAfter]
    by_cases h : x = y
    · rw [if_pos h]
      intro hh
      exact List.mem_of_mem_head? (by simpa using hh)
    · rw [if_neg h]
      intro hh
      exact List.tail_subset rest (succAfter_mem_tail rest x n hh)

theorem forall2_mem_right {R : TxnId → TxnId → Prop} :
    ∀ {l₁ l₂ : List TxnId}, List.Forall₂ R l₁ l₂ →
      ∀ b ∈ l₂, ∃ a ∈ l₁, R a b := by
  intro l₁ l₂ h
  induction h with
  | nil => simp
  | cons hr _ ih =>
    intro b hb
    rcases List.mem_cons.mp hb with hb1 | hb2
    · exact ⟨_, List.mem_cons_self _ _, hb1 ▸ hr⟩
    · obtain ⟨a, ha, hab⟩ := ih b hb2
      exact ⟨a, List.mem_cons_of_mem _ ha, hab⟩

theorem resolveDeadlock_fst (tbl : TxnTable) (s : List TxnId)
    (hs : s.Sorted (· ≤ ·)) :
    (resolveDeadlock tbl s).1 = resolveChain s tbl s := by
  simp only [resolveDeadlock, insertionSort_of_sorted s hs]
  cases s.head? with
  | none => rfl
  | some hd =>
    show (match lookupTxn (resolveChain s tbl s) hd with
      | some info =>
        (resolveChain s tbl s, if info.is_ready = true then some hd else none)
      | none => (resolveChain s tbl s, none)).1 = resolveChain s tbl s
    cases lookupTxn (resolveChain s tbl s) hd <;> rfl

theorem graphEdge_src_isSome (tbl : TxnTable) (u w : TxnId)
    (h : graphEdge tbl u w = true) : (lookupTxn tbl u).isSome := by
  unfold graphEdge at h
  cases hl : lookupTxn tbl u
  · rw [hl] at h
    exact absurd h (by simp)
  · rfl

theorem reach_src_cases (tbl : TxnTable) (u v : TxnId) (h : Reach tbl u v) :
    u = v ∨ (lookupTxn tbl u).isSome := by
  rcases Relation.ReflTransGen.cases_head h with heq | ⟨b, hub, _⟩
  · exact Or.inl heq
  · exact Or.inr (graphEdge_src_isSome tbl u b hub)

theorem isSome_mem_keys : ∀ (tbl : TxnTable) (u : TxnId),
    (lookupTxn tbl u).isSome → u ∈ keysOf tbl
  | [], u => by simp [lookupTxn, assocFind]
  | kv :: rest, u => by
    intro h
    by_cases hk : kv.1 = u
    · simp [keysOf, hk]
    · have : (lookupTxn rest u).isSome := by
        simpa [lookupTxn, assocFind, hk] using h
      simpa [keysOf] using Or.inr (isSome_mem_keys rest u this)

/-- C1 (amended): after the resolver rewrites a stable SCC with sorted
members s_0 < ... < s_{k-1}, every slot of a member's waited_by list that
held an SCC member has been overwritten — by the member's successor for
its first intra-SCC slot when a successor exists, by the sentinel
otherwise — slots outside the SCC are untouched, list lengths are
preserved, each member except the largest has exactly one new intra-SCC
edge (to its successor) while the largest member s_{k-1} has none, and the
head s_0 waits on no SCC member afterwards. -/
theorem resolve_deadlock_rewrites_scc (tbl : TxnTable) (s : List TxnId)
    (hsort : s.Sorted (· < ·))
    (h0 : kSentinelTxnId ∉ s)
    (hpres : ∀ m ∈ s, (lookupTxn tbl m).isSome) :
    ∀ x ∈ s, ∃ info info', lookupTxn tbl x = some info ∧
      lookupTxn (resolveDeadlock tbl s).1 x = some info' ∧
      List.Forall₂ (fun o nn => (o ∉ s → nn = o) ∧
          (o ∈ s → nn = kSentinelTxnId ∨ some nn = succAfter s x))
        info.waited_by info'.waited_by ∧
      info'.waited_by.length = info.waited_by.length ∧
      ((info.waited_by.any (fun w => decide (w ∈ s))) = true →
        info'.waited_by.filter (fun y => decide (y ∈ s)) = (succAfter s x).toList) ∧
      (∀ h, s.head? = some h → h ∉ info'.waited_by) := by
  intro x hx
  have hnd : s.Nodup := sorted_lt_nodup s hsort
  have hfst := resolveDeadlock_fst tbl s hsort.le_of_lt
  obtain ⟨info, info', hinfo, hchain, hslots, _⟩ :=
    resolveChain_member_slots s s tbl hnd hpres x hx
  rw [hfst]
  refine ⟨info, info', hinfo, hchain, ?_, ?_, ?_, ?_⟩
  · rw [hslots]
    exact rewriteSlots_forall2 s info.waited_by (succAfter s x)
  · rw [hslots]
    exact (rewriteSlots_forall2 s info.waited_by (succAfter s x)).length_eq.symm
  · intro hany
    rw [hslots]
    cases hsucc : succAfter s x with
    | none => simpa using rewriteSlots_filter_input_none s h0 info.waited_by
    | some n =>
      have hn : n ∈ s := List.tail_subset s (succAfter_mem_tail s x n hsucc)
      rw [rewriteSlots_filter_some s h0 n hn info.waited_by, if_pos hany]
      rfl
  · intro h hh hmem
    have hhs : h ∈ s := List.mem_of_mem_head? (by simp [hh])
    rw [hslots] at hmem
    obtain ⟨o, _, hR⟩ :=
      forall2_mem_right (rewriteSlots_forall2 s info.waited_by (succAfter s x)) h hmem
    by_cases hos : o ∈ s
    · rcases hR.2 hos with hsen | hsc
      · rw [hsen] at hhs
        exact h0 hhs
      · have hht : h ∈ s.tail := succAfter_mem_tail s x h hsc.symm
        cases hs : s with
        | nil => rw [hs] at hh; exact Option.noConfusion hh
        | cons a t =>
          rw [hs] at hh hht hnd
          have ha : a = h := by simpa using hh
          have : a ∉ t := (List.nodup_cons.mp hnd).1
          exact this (ha ▸ (by simpa using hht))
    · have : h = o := hR.1 hos
      exact hos (this ▸ hhs)

theorem c1_counterexample :
    ((lookupTxn (resolveDeadlock
        [(1, { id := 1, num_waiting_for := 1, waited_by := [2] }),
         (2, { id := 2, num_waiting_for := 1, waited_by := [1] })] [1, 2]).1 2).map
      (fun i => (i.waited_by.filter (fun y => decide (y ∈ ([1, 2] : List TxnId)))).length)
      = some 0) ∧ some 0 ≠ some 1 := by
  constructor
  · rfl
  · decide

theorem resolve_deadlock_rewrites_scc_witness :
    ∃ info', lookupTxn (resolveDeadlock
        [(1, { id := 1, num_waiting_for := 1, waited_by := [2] }),
         (2, { id := 2, num_waiting_for := 1, waited_by := [1] })] [1, 2]).1 1 =
      some info' ∧
      info'.waited_by.filter (fun y => decide (y ∈ ([1, 2] : List TxnId))) = [2] := by
  obtain ⟨info, info', hinfo, hchain, _, _, hone, _⟩ :=
    resolve_deadlock_rewrites_scc
      [(1, { id := 1, num_waiting_for := 1, waited_by := [2] }),
       (2, { id := 2, num_waiting_for := 1, waited_by := [1] })] [1, 2]
      (by simp) (by decide) (by decide) 1 (by decide)
  have hinfo' : info = { id := 1, num_waiting_for := 1, waited_by := [2] } := by
    have : lookupTxn
        [(1, { id := 1, num_waiting_for := 1, waited_by := [2] }),
         (2, { id := 2, num_waiting_for := 1, waited_by := [1] })] 1 =
        some { id := 1, num_waiting_for := 1, waited_by := [2] } := rfl
    rw [this] at hinfo
    exact (Option.some.inj hinfo).symm
  refine ⟨info', hchain, ?_⟩
  have := hone (by rw [hinfo']; decide)
  rw [this]
  decide

theorem c3_counterexample :
    StableComp
      [(1, { id := 1, num_waiting_for := 2, waited_by := [2] }),
       (2, { id := 2, num_waiting_for := 1, waited_by := [1] }),
       (5, { id := 5, num_waiting_for := 0, waited_by := [1] })] [1, 2] ∧
    (1 < ([1, 2] : List TxnId).length) ∧
    (runPass
      [(1, { id := 1, num_waiting_for := 2, waited_by := [2] }),
       (2, { id := 2, num_waiting_for := 1, waited_by := [1] }),
       (5, { id := 5, num_waiting_for := 0, waited_by := [1] })]
      [([1, 2], true), ([5], true)]).2 = [] ∧
    ((lookupTxn (runPass
      [(1, { id := 1, num_waiting_for := 2, waited_by := [2] }),
       (2, { id := 2, num_waiting_for := 1, waited_by := [1] }),
       (5, { id := 5, num_waiting_for := 0, waited_by := [1] })]
      [([1, 2], true), ([5], true)]).1 1).map TxnInfo.is_ready = some false) ∧
    ((lookupTxn (runPass
      [(1, { id := 1, num_waiting_for := 2, waited_by := [2] }),
       (2, { id := 2, num_waiting_for := 1, waited_by := [1] }),
       (5, { id := 5, num_waiting_for := 0, waited_by := [1] })]
      [([1, 2], true), ([5], true)]).1 2).map TxnInfo.is_ready = some false) := by
  refine ⟨?_, by decide, by decide, by decide, by decide⟩
  intro u m hm hr
  rcases reach_src_cases _ u m hr with rfl | hsome
  · have hm' : u = 1 ∨ u = 2 := by simpa using hm
    rcases hm' with rfl | rfl <;> decide
  · have hu : u ∈ ([1, 2, 5] : List TxnId) := by
      simpa [keysOf] using isSome_mem_keys _ u hsome
    have hu' : u = 1 ∨ u = 2 ∨ u = 5 := by simpa using hu
    rcases hu' with rfl | rfl | rfl <;> decide

/-- C3 (amended): resolving a sorted stable SCC publishes the minimal
member s_0 on the newly-ready output exactly when its counter is exhausted
by the SCC-internal wait-for edges: if s_0's num_waiting_for in the
snapshot equals the total number of occurrences of s_0 in the members'
waited_by lists — that is, s_0 has no blocker outside the SCC — then s_0
is ready after the rewrite and is returned.  When s_0 also waits on a txn
outside the SCC, no member of the SCC becomes ready in that pass. -/
theorem resolve_deadlock_head_ready (tbl : TxnTable) (s : List TxnId)
    (hsort : s.Sorted (· < ·))
    (hpres : ∀ m ∈ s, (lookupTxn tbl m).isSome)
    (h : TxnId) (hh : s.head? = some h)
    (hcomp : completeAt tbl h = true)
    (info : TxnInfo) (hinfo : lookupTxn tbl h = some info)
    (hnwf : info.num_waiting_for =
      ((s.map (fun x => countOccIn tbl x h)).sum : Int)) :
    (resolveDeadlock tbl s).2 = some h ∧
    ∃ info', lookupTxn (resolveDeadlock tbl s).1 h = some info' ∧
      info'.is_ready = true := by
  have hnd := sorted_lt_nodup s hsort
  have hfst := resolveDeadlock_fst tbl s hsort.le_of_lt
  have hsortle := hsort.le_of_lt
  obtain ⟨t, rfl⟩ : ∃ t, s = h :: t := by
    cases s with
    | nil => exact absurd hh (by simp)
    | cons a t =>
      have : a = h := by simpa using hh
      exact ⟨t, by rw [this]⟩
  have hhs : h ∈ h :: t := List.mem_cons_self h t
  have htail : ∀ u ∈ (h :: t).tail, u ≠ h := by
    intro u hu heq
    exact (List.nodup_cons.mp hnd).1 (heq ▸ hu)
  have hnwfmap := resolveChain_nwf (h :: t) (h :: t) tbl hnd hpres h htail
  have hconv : (((h :: t).map (fun x => intraOcc tbl (h :: t) x h)).sum) =
      (((h :: t).map (fun x => countOccIn tbl x h)).sum) := by
    congr 1
    apply List.map_congr_left
    intro x _
    unfold intraOcc countOccIn
    cases hl : lookupTxn tbl x with
    | none => rfl
    | some i => exact List.count_filter (by simpa using hhs)
  have hsome : (lookupTxn (resolveChain (h :: t) tbl (h :: t)) h).isSome := by
    rw [resolveChain_isSome, hinfo]; rfl
  obtain ⟨info', hI'⟩ := Option.isSome_iff_exists.mp hsome
  have hnwf' : info'.num_waiting_for = 0 := by
    rw [hI', hinfo] at hnwfmap
    simp only [Option.map_some'] at hnwfmap
    have h2 := Option.some.inj hnwfmap
    omega
  have hun' : info'.unarrived_lock_requests = info.unarrived_lock_requests := by
    have h3 := resolveChain_unarrived (h :: t) (h :: t) tbl h
    rw [hI', hinfo] at h3
    simpa using h3
  have hcomp0 : info.unarrived_lock_requests = 0 := by
    unfold completeAt at hcomp
    rw [hinfo] at hcomp
    simpa [TxnInfo.is_complete] using hcomp
  have hready : info'.is_ready = true := by
    simp [TxnInfo.is_ready, TxnInfo.is_complete, hnwf', hun', hcomp0]
  refine ⟨?_, info', by rw [hfst]; exact hI', hready⟩
  simp only [resolveDeadlock, insertionSort_of_sorted _ hsortle]
  show (match lookupTxn (resolveChain (h :: t) tbl (h :: t)) h with
    | some i => (resolveChain (h :: t) tbl (h :: t),
        if i.is_ready = true then some h else none)
    | none => (resolveChain (h :: t) tbl (h :: t), none)).2 = some h
  rw [hI']
  simp [hready]

theorem resolve_deadlock_head_ready_witness :
    (resolveDeadlock
      [(1, { id := 1, num_waiting_for := 1, waited_by := [2] }),
       (2, { id := 2, num_waiting_for := 1, waited_by := [1] })] [1, 2]).2 =
      some 1 :=
  (resolve_deadlock_head_ready
    [(1, { id := 1, num_waiting_for := 1, waited_by := [2] }),
     (2, { id := 2, num_waiting_for := 1, waited_by := [1] })] [1, 2]
    (by simp) (by decide) 1 rfl (by decide)
    { id := 1, num_waiting_for := 1, waited_by := [2] } rfl (by decide)).1

theorem keysOf_cons (kv : TxnId × TxnInfo) (rest : TxnTable) :
    keysOf (kv :: rest) = kv.1 :: keysOf rest := rfl

theorem countWaiters_cons (kv : TxnId × TxnInfo) (rest : TxnTable) (t : TxnId) :
    countWaiters (kv :: rest) t = waiterOcc t kv.2 + countWaiters rest t := by
  simp [countWaiters]

theorem updateTxn_of_not_mem : ∀ (tbl : TxnTable) (k : TxnId)
    (f : TxnInfo → TxnInfo), k ∉ keysOf tbl → updateTxn tbl k f = tbl
  | [], _, _, _ => rfl
  | kv :: rest, k, f, h => by
    rw [keysOf_cons] at h
    have h1 : ¬ (kv.1 = k) := fun hh => h (hh ▸ List.mem_cons_self _ _)
    have h2 : k ∉ keysOf rest := fun hh => h (List.mem_cons_of_mem _ hh)
    simp only [updateTxn, List.map_cons, if_neg h1]
    congr 1
    exact updateTxn_of_not_mem rest k f h2

theorem eraseTxn_of_not_mem : ∀ (tbl : TxnTable) (k : TxnId),
    k ∉ keysOf tbl → eraseTxn tbl k = tbl
  | [], _, _ => rfl
  | kv :: rest, k, h => by
    rw [keysOf_cons] at h
    have h1 : kv.1 ≠ k := fun hh => h (hh ▸ List.mem_cons_self _ _)
    have h2 : k ∉ keysOf rest := fun hh => h (List.mem_cons_of_mem _ hh)
    show List.filter (fun kv => kv.1 ≠ k) (kv :: rest) = kv :: rest
    rw [List.filter_cons, if_pos (by simpa using h1)]
    congr 1
    show eraseTxn rest k = rest
    exact eraseTxn_of_not_mem rest k h2

theorem waiterOcc_append (t a : TxnId) (v : TxnInfo) :
    waiterOcc t { v with waited_by := v.waited_by ++ [a] } =
      waiterOcc t v + (if a = t ∧ a ≠ kSentinelTxnId then 1 else 0) := by
  unfold waiterOcc
  rw [List.filter_append, List.count_append]
  by_cases h2 : a = t
  · subst h2
    by_cases h1 : a = kSentinelTxnId
    · simp [h1]
    · simp [h1]
  · by_cases h1 : a = kSentinelTxnId
    · simp [h1, h2]
    · simp [h1, h2, List.count_cons]

theorem countWaiters_updateTxn_int : ∀ (tbl : TxnTable) (k : TxnId)
    (f : TxnInfo → TxnInfo) (v : TxnInfo) (t : TxnId),
    (keysOf tbl).Nodup → lookupTxn tbl k = some v →
    (countWaiters (updateTxn tbl k f) t : Int) =
      (countWaiters tbl t : Int) + (waiterOcc t (f v) : Int) -
        (waiterOcc t v : Int)
  | [], k, f, v, t, _, hl => by exact absurd hl (by simp [lookupTxn, assocFind])
  | kv :: rest, k, f, v, t, hnd, hl => by
    rw [keysOf_cons] at hnd
    by_cases hk : kv.1 = k
    · have hv : kv.2 = v := by
        simpa [lookupTxn, assocFind, hk] using hl
      have hknotin : k ∉ keysOf rest := hk ▸ (List.nodup_cons.mp hnd).1
      have hstep : updateTxn (kv :: rest) k f = (kv.1, f kv.2) :: updateTxn rest k f := by
        simp [updateTxn, hk]
      rw [hstep, updateTxn_of_not_mem rest k f hknotin,
        countWaiters_cons, countWaiters_cons, hv]
      push_cast
      omega
    · have hl' : lookupTxn rest k = some v := by
        simpa [lookupTxn, assocFind, hk] using hl
      have ih := countWaiters_updateTxn_int rest k f v t
        (List.nodup_cons.mp hnd).2 hl'
      have hstep : updateTxn (kv :: rest) k f = kv :: updateTxn rest k f := by
        simp [updateTxn, hk]
      rw [hstep, countWaiters_cons, countWaiters_cons]
      push_cast
      push_cast at ih
      omega

theorem countWaiters_update_wb_preserve :
    ∀ (tbl : TxnTable) (k : TxnId) (f : TxnInfo → TxnInfo) (t : TxnId),
      (∀ v, (f v).waited_by = v.waited_by) →
      countWaiters (updateTxn tbl k f) t = countWaiters tbl t
  | [], _, _, _, _ => rfl
  | kv :: rest, k, f, t, hf => by
    have hstep : updateTxn (kv :: rest) k f =
        (if kv.1 = k then (kv.1, f kv.2) else kv) :: updateTxn rest k f := by
      simp [updateTxn]
    rw [hstep, countWaiters_cons, countWaiters_cons,
      countWaiters_update_wb_preserve rest k f t hf]
    congr 1
    by_cases hk : kv.1 = k
    · rw [if_pos hk]
      show waiterOcc t (f kv.2) = waiterOcc t kv.2
      unfold waiterOcc
      rw [hf kv.2]
    · rw [if_neg hk]

theorem countWaiters_append_entry (tbl : TxnTable) (k : TxnId) (v : TxnInfo)
    (t : TxnId) :
    countWaiters (tbl ++ [(k, v)]) t = countWaiters tbl t + waiterOcc t v := by
  simp [countWaiters]

theorem countWaiters_erase_int : ∀ (tbl : TxnTable) (k : TxnId) (v : TxnInfo)
    (t : TxnId), (keysOf tbl).Nodup → lookupTxn tbl k = some v →
    (countWaiters tbl t : Int) =
      (countWaiters (eraseTxn tbl k) t : Int) + (waiterOcc t v : Int)
  | [], k, v, t, _, hl => by exact absurd hl (by simp [lookupTxn, assocFind])
  | kv :: rest, k, v, t, hnd, hl => by
    rw [keysOf_cons] at hnd
    by_cases hk : kv.1 = k
    · have hv : kv.2 = v := by
        simpa [lookupTxn, assocFind, hk] using hl
      have hknotin : k ∉ keysOf rest := hk ▸ (List.nodup_cons.mp hnd).1
      have hstep : eraseTxn (kv :: rest) k = eraseTxn rest k := by
        simp [eraseTxn, hk]
      rw [hstep, eraseTxn_of_not_mem rest k hknotin, countWaiters_cons, hv]
      push_cast
      omega
    · have hl' : lookupTxn rest k = some v := by
        simpa [lookupTxn, assocFind, hk] using hl
      have ih := countWaiters_erase_int rest k v t (List.nodup_cons.mp hnd).2 hl'
      have hstep : eraseTxn (kv :: rest) k = kv :: eraseTxn rest k := by
        simp [eraseTxn, hk]
      rw [hstep, countWaiters_cons, countWaiters_cons]
      push_cast
      push_cast at ih
      omega

theorem countWaiters_zero_of_absent (tbl : TxnTable) (t : TxnId)
    (hedges : EdgesPresent tbl) (habs : lookupTxn tbl t = none) :
    countWaiters tbl t = 0 := by
  unfold countWaiters
  apply List.sum_eq_zero
  intro n hn
  obtain ⟨kv, hkv, hocc⟩ := List.mem_map.mp hn
  by_contra hne
  have h1 : waiterOcc t kv.2 = n := hocc
  have hpos : 0 < (kv.2.waited_by.filter (fun x => x ≠ kSentinelTxnId)).count t := by
    unfold waiterOcc at h1
    omega
  have hmem : t ∈ kv.2.waited_by.filter (fun x => x ≠ kSentinelTxnId) := by
    by_contra hnm
    rw [List.count_eq_zero.mpr hnm] at hpos
    omega
  have hmem' := List.mem_filter.mp hmem
  have hsome := hedges kv hkv t hmem'.1 (by simpa using hmem'.2)
  rw [habs] at hsome
  exact absurd hsome (by simp)

theorem isSome_updateTxn (tbl : TxnTable) (k : TxnId) (f : TxnInfo → TxnInfo)
    (j : TxnId) :
    (lookupTxn (updateTxn tbl k f) j).isSome = (lookupTxn tbl j).isSome := by
  rw [lookup_updateTxn]
  by_cases h : j = k
  · rw [if_pos h]
    cases lookupTxn tbl j <;> rfl
  · rw [if_neg h]

theorem mem_keys_isSome : ∀ (tbl : TxnTable) (u : TxnId),
    u ∈ keysOf tbl → (lookupTxn tbl u).isSome
  | kv :: rest, u, h => by
    rw [keysOf_cons] at h
    by_cases hk : kv.1 = u
    · simp [lookupTxn, assocFind, hk]
    · have : u ∈ keysOf rest := by
        rcases List.mem_cons.mp h with h1 | h2
        · exact absurd h1.symm hk
        · exact h2
      have := mem_keys_isSome rest u this
      simpa [lookupTxn, assocFind, hk] using this

theorem mem_of_lookup : ∀ (tbl : TxnTable) (k : TxnId) (v : TxnInfo),
    lookupTxn tbl k = some v → (k, v) ∈ tbl
  | kv :: rest, k, v, h => by
    by_cases hk : kv.1 = k
    · have hv : kv.2 = v := by simpa [lookupTxn, assocFind, hk] using h
      have : kv = (k, v) := by
        cases kv
        simp_all
      exact this ▸ List.mem_cons_self _ _
    · have h' : lookupTxn rest k = some v := by
        simpa [lookupTxn, assocFind, hk] using h
      exact List.mem_cons_of_mem _ (mem_of_lookup rest k v h')

theorem lookup_of_mem_nodup : ∀ (tbl : TxnTable),
    (keysOf tbl).Nodup → ∀ kv ∈ tbl, lookupTxn tbl kv.1 = some kv.2
  | kv0 :: rest, hnd, kv, hm => by
    rw [keysOf_cons] at hnd
    rcases List.mem_cons.mp hm with h1 | h2
    · rw [h1]
      simp [lookupTxn, assocFind]
    · have hk : kv0.1 ≠ kv.1 := by
        intro hh
        have : kv.1 ∈ keysOf rest := List.mem_map_of_mem (·.1) h2
        exact (List.nodup_cons.mp hnd).1 (hh ▸ this)
      have := lookup_of_mem_nodup rest (List.nodup_cons.mp hnd).2 kv h2
      simpa [lookupTxn, assocFind, hk] using this

theorem keysOf_eraseTxn (tbl : TxnTable) (k : TxnId) :
    keysOf (eraseTxn tbl k) = (keysOf tbl).filter (fun x => x ≠ k) := by
  induction tbl with
  | nil => rfl
  | cons kv rest ih =>
    rw [keysOf_cons]
    show keysOf (List.filter (fun kv => kv.1 ≠ k) (kv :: rest)) = _
    rw [List.filter_cons, List.filter_cons]
    by_cases hk : kv.1 = k
    · rw [if_neg (by simpa using hk), if_neg (by simpa using hk)]
      exact ih
    · rw [if_pos (by simpa using hk), if_pos (by simpa using hk), keysOf_cons]
      exact congrArg (kv.1 :: ·) ih

theorem edges_updateTxn_preserve {tbl : TxnTable} {k : TxnId}
    {f : TxnInfo → TxnInfo} (hf : ∀ v, (f v).waited_by = v.waited_by)
    (h : EdgesPresent tbl) : EdgesPresent (updateTxn tbl k f) := by
  intro kv' hkv' x hx hxne
  obtain ⟨kv, hkv, hEq⟩ := List.mem_map.mp hkv'
  have hwb : kv'.2.waited_by = kv.2.waited_by := by
    rw [← hEq]
    by_cases hh : kv.1 = k <;> simp [hh, hf]
  rw [hwb] at hx
  rw [isSome_updateTxn]
  exact h kv hkv x hx hxne

theorem sentinel_updateTxn {tbl : TxnTable} {k : TxnId} {f : TxnInfo → TxnInfo}
    (h : lookupTxn tbl kSentinelTxnId = none) :
    lookupTxn (updateTxn tbl k f) kSentinelTxnId = none := by
  rw [lookup_updateTxn]
  by_cases hh : kSentinelTxnId = k
  · rw [if_pos hh, h]
    rfl
  · rw [if_neg hh]
    exact h

theorem wf_emplace_update (tbl : TxnTable) (id : TxnId) (g : TxnInfo → TxnInfo)
    (hg_wb : ∀ v, (g v).waited_by = v.waited_by)
    (hg_nwf : ∀ v, (g v).num_waiting_for = v.num_waiting_for)
    (hw : WfTable tbl) (hid : id ≠ kSentinelTxnId) :
    WfTable (updateTxn (emplaceTxn tbl id) id g) ∧
    (lookupTxn (updateTxn (emplaceTxn tbl id) id g) id).isSome := by
  obtain ⟨hnd, hsen, hedges, hbal⟩ := hw
  cases hpre : lookupTxn tbl id with
  | some v =>
    have hemp : emplaceTxn tbl id = tbl := emplace_of_present tbl id (by simp [hpre])
    rw [hemp]
    refine ⟨⟨?_, ?_, ?_, ?_⟩, ?_⟩
    · rw [keysOf_updateTxn]; exact hnd
    · exact sentinel_updateTxn hsen
    · exact edges_updateTxn_preserve hg_wb hedges
    · intro j info' hj
      rw [lookup_updateTxn] at hj
      rw [countWaiters_update_wb_preserve tbl id g j hg_wb]
      by_cases hjid : j = id
      · rw [if_pos hjid, hjid, hpre] at hj
        simp only [Option.map_some'] at hj
        rw [← Option.some.inj hj, hg_nwf]
        exact hjid ▸ hbal id v (hjid ▸ hpre)
      · rw [if_neg hjid] at hj
        exact hbal j info' hj
    · rw [isSome_updateTxn, hpre]; rfl
  | none =>
    have hemp : emplaceTxn tbl id = tbl ++ [(id, { id := id })] := by
      simp [emplaceTxn, hpre]
    have hlk : ∀ j, lookupTxn (emplaceTxn tbl id) j =
        if j = id then some { id := id } else lookupTxn tbl j :=
      fun j => lookup_emplace_absent tbl id j hpre
    have hidnotin : id ∉ keysOf tbl := by
      intro hmem
      have := mem_keys_isSome tbl id hmem
      rw [hpre] at this
      exact absurd this (by simp)
    have hkeys1 : keysOf (emplaceTxn tbl id) = keysOf tbl ++ [id] := by
      rw [hemp]
      simp [keysOf]
    have hcw1 : ∀ t, countWaiters (emplaceTxn tbl id) t = countWaiters tbl t := by
      intro t
      rw [hemp, countWaiters_append_entry]
      simp [waiterOcc]
    refine ⟨⟨?_, ?_, ?_, ?_⟩, ?_⟩
    · rw [keysOf_updateTxn, hkeys1]
      rw [List.nodup_append]
      exact ⟨hnd, List.nodup_singleton id, by simpa using hidnotin⟩
    · apply sentinel_updateTxn
      rw [hlk kSentinelTxnId, if_neg (fun hh => hid hh.symm)]
      exact hsen
    · apply edges_updateTxn_preserve hg_wb
      intro kv hkv x hx hxne
      rw [hemp] at hkv
      rcases List.mem_append.mp hkv with hold | hnew
      · rw [hlk x]
        by_cases hxid : x = id
        · rw [if_pos hxid]; rfl
        · rw [if_neg hxid]
          exact hedges kv hold x hx hxne
      · have : kv = (id, { id := id }) := by simpa using hnew
        rw [this] at hx
        exact absurd hx (by simp)
    · intro j info' hj
      rw [lookup_updateTxn, hlk j] at hj
      rw [countWaiters_update_wb_preserve _ id g j hg_wb, hcw1 j]
      by_cases hjid : j = id
      · rw [if_pos hjid, if_pos hjid] at hj
        simp only [Option.map_some'] at hj
        rw [← Option.some.inj hj, hg_nwf]
        have : countWaiters tbl j = 0 :=
          countWaiters_zero_of_absent tbl j hedges (hjid ▸ hpre)
        rw [this]
        rfl
      · rw [if_neg hjid, if_neg hjid] at hj
        exact hbal j info' hj
    · rw [isSome_updateTxn, hlk id, if_pos rfl]
      rfl

theorem wf_add_edge (tbl : TxnTable) (id b : TxnId) (vb : TxnInfo)
    (hw : WfTable tbl) (hid : id ≠ kSentinelTxnId)
    (hpresid : (lookupTxn tbl id).isSome)
    (hb : b ≠ id) (hlb : lookupTxn tbl b = some vb) :
    WfTable (updateTxn
      (updateTxn tbl id (fun t => { t with num_waiting_for := t.num_waiting_for + 1 }))
      b (fun t => { t with waited_by := t.waited_by ++ [id] })) := by
  obtain ⟨hnd, hsen, hedges, hbal⟩ := hw
  have hndT1 : (keysOf (updateTxn tbl id
      (fun t => { t with num_waiting_for := t.num_waiting_for + 1 }))).Nodup := by
    rw [keysOf_updateTxn]; exact hnd
  have hlbT1 : lookupTxn (updateTxn tbl id
      (fun t => { t with num_waiting_for := t.num_waiting_for + 1 })) b = some vb := by
    rw [lookup_updateTxn, if_neg hb, hlb]
  have hedgesT1 : EdgesPresent (updateTxn tbl id
      (fun t => { t with num_waiting_for := t.num_waiting_for + 1 })) :=
    edges_updateTxn_preserve (fun v => rfl) hedges
  have hcw : ∀ t, (countWaiters (updateTxn
      (updateTxn tbl id (fun t => { t with num_waiting_for := t.num_waiting_for + 1 }))
      b (fun t => { t with waited_by := t.waited_by ++ [id] })) t : Int) =
      (countWaiters tbl t : Int) + (if id = t then 1 else 0) := by
    intro t
    rw [countWaiters_updateTxn_int _ b _ vb t hndT1 hlbT1]
    rw [countWaiters_update_wb_preserve tbl id
      (fun t => { t with num_waiting_for := t.num_waiting_for + 1 }) t (fun v => rfl)]
    rw [waiterOcc_append]
    by_cases hit : id = t
    · rw [if_pos hit, if_pos ⟨hit, hid⟩]
      push_cast
      omega
    · rw [if_neg hit, if_neg (fun hh => hit hh.1)]
      push_cast
      omega
  refine ⟨?_, ?_, ?_, ?_⟩
  · rw [keysOf_updateTxn, keysOf_updateTxn]; exact hnd
  · exact sentinel_updateTxn (sentinel_updateTxn hsen)
  · intro kv' hkv' x hx hxne
    obtain ⟨kv1, hkv1, hEq⟩ := List.mem_map.mp hkv'
    rw [isSome_updateTxn, isSome_updateTxn]
    by_cases hkb : kv1.1 = b
    · have hwb : kv'.2.waited_by = kv1.2.waited_by ++ [id] := by
        rw [← hEq, if_pos hkb]
      rw [hwb] at hx
      rcases List.mem_append.mp hx with hold | hnew
      · have := hedgesT1 kv1 hkv1 x hold hxne
        rw [isSome_updateTxn] at this
        exact this
      · have : x = id := by simpa using hnew
        rw [this]
        exact hpresid
    · have hwb : kv'.2.waited_by = kv1.2.waited_by := by
        rw [← hEq, if_neg hkb]
      rw [hwb] at hx
      have := hedgesT1 kv1 hkv1 x hx hxne
      rw [isSome_updateTxn] at this
      exact this
  · intro j info' hj
    rw [lookup_updateTxn] at hj
    rw [hcw j]
    by_cases hjb : j = b
    · have hjid : ¬ j = id := fun hh => hb (hjb.symm.trans hh)
      have hlbj : lookupTxn tbl j = some vb := by rw [hjb]; exact hlb
      rw [if_pos hjb, lookup_updateTxn, if_neg hjid, hlbj] at hj
      simp only [Option.map_some'] at hj
      have hnwf : info'.num_waiting_for = vb.num_waiting_for := by
        rw [← Option.some.inj hj]
      rw [hnwf, if_neg (fun hh => hjid hh.symm), hbal j vb hlbj]
      omega
    · rw [if_neg hjb, lookup_updateTxn] at hj
      by_cases hjid : j = id
      · obtain ⟨vid, hvid⟩ := Option.isSome_iff_exists.mp hpresid
        have hvidj : lookupTxn tbl j = some vid := by rw [hjid]; exact hvid
        rw [if_pos hjid, hvidj] at hj
        simp only [Option.map_some'] at hj
        have hnwf : info'.num_waiting_for = vid.num_waiting_for + 1 := by
          rw [← Option.some.inj hj]
        rw [hnwf, if_pos hjid.symm, hbal j vid hvidj]
      · rw [if_neg hjid] at hj
        rw [if_neg (fun hh => hjid hh.symm), hbal j info' hj]
        omega

theorem wf_addWaitForEdges : ∀ (bs : List TxnId) (tbl : TxnTable) (id : TxnId),
    WfTable tbl → id ≠ kSentinelTxnId → (lookupTxn tbl id).isSome →
    WfTable (addWaitForEdges id tbl bs)
  | [], _, _, hw, _, _ => hw
  | b :: rest, tbl, id, hw, hid, hpres => by
    by_cases hb : b = id
    · rw [show addWaitForEdges id tbl (b :: rest) = addWaitForEdges id tbl rest from by
        simp [addWaitForEdges, hb]]
      exact wf_addWaitForEdges rest tbl id hw hid hpres
    · cases hlb : lookupTxn tbl b with
      | none =>
        rw [show addWaitForEdges id tbl (b :: rest) = addWaitForEdges id tbl rest from by
          simp [addWaitForEdges, hb, hlb]]
        exact wf_addWaitForEdges rest tbl id hw hid hpres
      | some vb =>
        rw [show addWaitForEdges id tbl (b :: rest) =
            addWaitForEdges id (updateTxn (updateTxn tbl id
              (fun t => { t with num_waiting_for := t.num_waiting_for + 1 }))
              b (fun t => { t with waited_by := t.waited_by ++ [id] })) rest from by
          simp [addWaitForEdges, hb, hlb]]
        apply wf_addWaitForEdges rest _ id
          (wf_add_edge tbl id b vb hw hid hpres hb hlb) hid
        rw [isSome_updateTxn, isSome_updateTxn]
        exact hpres

theorem releaseWaiters_keys : ∀ (ws acc : List TxnId) (tbl : TxnTable),
    keysOf (releaseWaiters tbl acc ws).1 = keysOf tbl
  | [], _, _ => rfl
  | b :: rest, acc, tbl => by
    by_cases hb : b = kSentinelTxnId
    · rw [show (releaseWaiters tbl acc (b :: rest)) = releaseWaiters tbl acc rest from by
        simp [releaseWaiters, hb]]
      exact releaseWaiters_keys rest acc tbl
    · cases hlb : lookupTxn tbl b with
      | none =>
        rw [show (releaseWaiters tbl acc (b :: rest)) = releaseWaiters tbl acc rest from by
          simp [releaseWaiters, hb, hlb]]
        exact releaseWaiters_keys rest acc tbl
      | some vb =>
        rw [show (releaseWaiters tbl acc (b :: rest)) =
            releaseWaiters
              (updateTxn tbl b (fun t =>
                { t with num_waiting_for := t.num_waiting_for - 1 }))
              (match lookupTxn (updateTxn tbl b (fun t =>
                  { t with num_waiting_for := t.num_waiting_for - 1 })) b with
               | some t => if t.is_ready then acc ++ [b] else acc
               | none => acc) rest from by
          simp [releaseWaiters, hb, hlb]]
        rw [releaseWaiters_keys rest _ _, keysOf_updateTxn]

theorem releaseWaiters_countWaiters : ∀ (ws acc : List TxnId) (tbl : TxnTable)
    (t : TxnId),
    countWaiters (releaseWaiters tbl acc ws).1 t = countWaiters tbl t
  | [], _, _, _ => rfl
  | b :: rest, acc, tbl, t => by
    by_cases hb : b = kSentinelTxnId
    · rw [show (releaseWaiters tbl acc (b :: rest)) = releaseWaiters tbl acc rest from by
        simp [releaseWaiters, hb]]
      exact releaseWaiters_countWaiters rest acc tbl t
    · cases hlb : lookupTxn tbl b with
      | none =>
        rw [show (releaseWaiters tbl acc (b :: rest)) = releaseWaiters tbl acc rest from by
          simp [releaseWaiters, hb, hlb]]
        exact releaseWaiters_countWaiters rest acc tbl t
      | some vb =>
        rw [show (releaseWaiters tbl acc (b :: rest)) =
            releaseWaiters
              (updateTxn tbl b (fun t =>
                { t with num_waiting_for := t.num_waiting_for - 1 }))
              (match lookupTxn (updateTxn tbl b (fun t =>
                  { t with num_waiting_for := t.num_waiting_for - 1 })) b with
               | some t => if t.is_ready then acc ++ [b] else acc
               | none => acc) rest from by
          simp [releaseWaiters, hb, hlb]]
        rw [releaseWaiters_countWaiters rest _ _ t,
          countWaiters_update_wb_preserve tbl b
            (fun t => { t with num_waiting_for := t.num_waiting_for - 1 }) t
            (fun v => rfl)]

theorem releaseWaiters_lookup : ∀ (ws acc : List TxnId) (tbl : TxnTable),
    (∀ x ∈ ws, x ≠ kSentinelTxnId → (lookupTxn tbl x).isSome) →
    ∀ j, lookupTxn (releaseWaiters tbl acc ws).1 j =
      (lookupTxn tbl j).map (fun t =>
        { t with num_waiting_for := t.num_waiting_for -
            (((ws.filter (fun x => x ≠ kSentinelTxnId)).count j : Int)) })
  | [], acc, tbl, _, j => by
    cases h : lookupTxn tbl j <;> simp [releaseWaiters, h]
  | b :: rest, acc, tbl, hp, j => by
    by_cases hb : b = kSentinelTxnId
    · rw [show (releaseWaiters tbl acc (b :: rest)) = releaseWaiters tbl acc rest from by
        simp [releaseWaiters, hb]]
      rw [releaseWaiters_lookup rest acc tbl
        (fun x hx hxne => hp x (List.mem_cons_of_mem b hx) hxne) j]
      rw [List.filter_cons, if_neg (by simpa using hb)]
    · have hsb : (lookupTxn tbl b).isSome := hp b (List.mem_cons_self b rest) hb
      obtain ⟨vb, hlb⟩ := Option.isSome_iff_exists.mp hsb
      rw [show (releaseWaiters tbl acc (b :: rest)) =
          releaseWaiters
            (updateTxn tbl b (fun t =>
              { t with num_waiting_for := t.num_waiting_for - 1 }))
            (match lookupTxn (updateTxn tbl b (fun t =>
                { t with num_waiting_for := t.num_waiting_for - 1 })) b with
             | some t => if t.is_ready then acc ++ [b] else acc
             | none => acc) rest from by
        simp [releaseWaiters, hb, hlb]]
      rw [releaseWaiters_lookup rest _ _
        (fun x hx hxne => by
          rw [isSome_updateTxn]
          exact hp x (List.mem_cons_of_mem b hx) hxne) j]
      rw [lookup_updateTxn,
        show (b :: rest).filter (fun x => x ≠ kSentinelTxnId) =
            b :: rest.filter (fun x => x ≠ kSentinelTxnId) from by
          rw [List.filter_cons, if_pos (by simpa using hb)]]
      by_cases hjb : j = b
      · rw [if_pos hjb]
        cases hl : lookupTxn tbl j with
        | none => rfl
        | some t0 =>
          simp only [Option.map_some']
          have hcount : ((b :: rest.filter (fun x => x ≠ kSentinelTxnId)).count j : Int) =
              ((rest.filter (fun x => x ≠ kSentinelTxnId)).count j : Int) + 1 := by
            rw [List.count_cons]
            simp [hjb]
          rw [hcount]
          congr 1
          simp only [TxnInfo.mk.injEq, true_and, and_true]
          omega
      · rw [if_neg hjb]
        cases hl : lookupTxn tbl j with
        | none => rfl
        | some t0 =>
          simp only [Option.map_some']
          have hbj : ¬ b = j := fun hh => hjb hh.symm
          have hcount : ((b :: rest.filter (fun x => x ≠ kSentinelTxnId)).count j : Int) =
              ((rest.filter (fun x => x ≠ kSentinelTxnId)).count j : Int) := by
            rw [List.count_cons]
            simp [hbj, hjb]
          rw [hcount]

theorem wf_releaseLocks (s : LMState) (id : TxnId) (s' : LMState)
    (out : List TxnId) (hw : WfTable s.txn_info)
    (hok : releaseLocks s id = some (s', out)) : WfTable s'.txn_info := by
  obtain ⟨hnd, hsen, hedges, hbal⟩ := hw
  cases hlid : lookupTxn s.txn_info id with
  | none =>
    unfold releaseLocks at hok
    rw [hlid] at hok
    have : s = s' := congrArg Prod.fst (Option.some.inj hok)
    rw [← this]
    exact ⟨hnd, hsen, hedges, hbal⟩
  | some info =>
    unfold releaseLocks at hok
    rw [hlid] at hok
    have hok2 : (if info.is_ready then
        some (LMState.mk (eraseTxn (releaseWaiters s.txn_info [] info.waited_by).1 id)
            s.lock_table,
          (releaseWaiters s.txn_info [] info.waited_by).2)
      else none) = some (s', out) := hok
    by_cases hr : info.is_ready
    · rw [if_pos hr] at hok2
      have hs' : s'.txn_info =
          eraseTxn (releaseWaiters s.txn_info [] info.waited_by).1 id := by
        have := congrArg (fun p => p.1.txn_info) (Option.some.inj hok2)
        exact this.symm
      rw [hs']
      have hnwf0 : info.num_waiting_for = 0 := by
        unfold TxnInfo.is_ready at hr
        have := (Bool.and_eq_true _ _).mp hr
        simpa using this.2
      have hcw_id0 : countWaiters s.txn_info id = 0 := by
        have := hbal id info hlid
        omega
      have hentry : (id, info) ∈ s.txn_info := mem_of_lookup _ id info hlid
      have hpws : ∀ x ∈ info.waited_by, x ≠ kSentinelTxnId →
          (lookupTxn s.txn_info x).isSome :=
        fun x hx hxne => hedges (id, info) hentry x hx hxne
      have hRlook := releaseWaiters_lookup info.waited_by [] s.txn_info hpws
      have hRkeys := releaseWaiters_keys info.waited_by [] s.txn_info
      have hRcount := releaseWaiters_countWaiters info.waited_by [] s.txn_info
      have hRnd : (keysOf (releaseWaiters s.txn_info [] info.waited_by).1).Nodup := by
        rw [hRkeys]; exact hnd
      have hRid : lookupTxn (releaseWaiters s.txn_info [] info.waited_by).1 id =
          some { info with num_waiting_for := info.num_waiting_for -
            (((info.waited_by.filter (fun x => x ≠ kSentinelTxnId)).count id : Int)) } := by
        rw [hRlook id, hlid]
        rfl
      have hcw_all_zero : ∀ kv ∈ (releaseWaiters s.txn_info [] info.waited_by).1,
          waiterOcc id kv.2 = 0 := by
        intro kv hkv
        have hsum : countWaiters (releaseWaiters s.txn_info [] info.waited_by).1 id = 0 := by
          rw [hRcount id]; exact hcw_id0
        unfold countWaiters at hsum
        have := List.sum_eq_zero_iff.mp hsum (waiterOcc id kv.2)
        exact this (List.mem_map_of_mem _ hkv)
      refine ⟨?_, ?_, ?_, ?_⟩
      · rw [keysOf_eraseTxn, hRkeys]
        exact hnd.filter _
      · rw [lookup_eraseTxn]
        by_cases hz : kSentinelTxnId = id
        · rw [if_pos hz]
        · rw [if_neg hz, hRlook kSentinelTxnId, hsen]
          rfl
      · intro kv hkv x hx hxne
        have hkvR : kv ∈ (releaseWaiters s.txn_info [] info.waited_by).1 :=
          List.mem_of_mem_filter hkv
        have hxid : x ≠ id := by
          intro hxeq
          have h0 := hcw_all_zero kv hkvR
          unfold waiterOcc at h0
          have hmem : x ∈ kv.2.waited_by.filter (fun y => y ≠ kSentinelTxnId) :=
            List.mem_filter.mpr ⟨hx, by simpa using hxne⟩
          rw [hxeq] at hmem
          exact (List.count_eq_zero.mp h0) hmem
        have hlkvR : lookupTxn (releaseWaiters s.txn_info [] info.waited_by).1 kv.1 =
            some kv.2 := lookup_of_mem_nodup _ hRnd kv hkvR
        have hlkv := hRlook kv.1
        rw [hlkvR] at hlkv
        rw [lookup_eraseTxn, if_neg hxid, hRlook x]
        cases ht0 : lookupTxn s.txn_info kv.1 with
        | none =>
          rw [ht0] at hlkv
          exact Option.noConfusion hlkv
        | some t0 =>
          rw [ht0] at hlkv
          simp only [Option.map_some'] at hlkv
          have hwb : kv.2.waited_by = t0.waited_by := by
            rw [Option.some.inj hlkv]
          have hxwb : x ∈ t0.waited_by := hwb ▸ hx
          have hsx := hedges (kv.1, t0) (mem_of_lookup _ kv.1 t0 ht0) x hxwb hxne
          obtain ⟨w, hw⟩ := Option.isSome_iff_exists.mp hsx
          rw [hw]
          rfl
      · intro j v hlv
        rw [lookup_eraseTxn] at hlv
        by_cases hjid : j = id
        · rw [if_pos hjid] at hlv
          exact Option.noConfusion hlv
        · rw [if_neg hjid, hRlook j] at hlv
          cases ht0 : lookupTxn s.txn_info j with
          | none =>
            rw [ht0] at hlv
            exact Option.noConfusion hlv
          | some t0 =>
            rw [ht0] at hlv
            simp only [Option.map_some'] at hlv
            have hv := Option.some.inj hlv
            have hvnwf : v.num_waiting_for = t0.num_waiting_for -
                (((info.waited_by.filter (fun x => x ≠ kSentinelTxnId)).count j : Int)) := by
              rw [← hv]
            have hbalj := hbal j t0 ht0
            have herase := countWaiters_erase_int
              (releaseWaiters s.txn_info [] info.waited_by).1 id
              { info with num_waiting_for := info.num_waiting_for -
                  (((info.waited_by.filter (fun x => x ≠ kSentinelTxnId)).count id : Int)) }
              j hRnd hRid
            have hwo : waiterOcc j { info with num_waiting_for := info.num_waiting_for -
                (((info.waited_by.filter (fun x => x ≠ kSentinelTxnId)).count id : Int)) } =
                (info.waited_by.filter (fun x => x ≠ kSentinelTxnId)).count j := rfl
            rw [hwo, hRcount j] at herase
            rw [hvnwf, hbalj]
            omega
    · rw [if_neg hr] at hok2
      exact Option.noConfusion hok2

theorem wf_acceptTransaction (s : LMState) (id : TxnId) (expected : Nat)
    (hw : WfTable s.txn_info) (hid : id ≠ kSentinelTxnId) :
    WfTable (acceptTransaction s id expected).1.txn_info := by
  have h := wf_emplace_update s.txn_info id
    (fun t => { t with unarrived_lock_requests :=
        t.unarrived_lock_requests + expected })
    (fun v => rfl) (fun v => rfl) hw hid
  exact h.1

theorem wf_acquireLocks (s : LMState) (id : TxnId)
    (locks : List (KeyReplica × LockMode)) (hw : WfTable s.txn_info)
    (hid : id ≠ kSentinelTxnId) :
    WfTable (acquireLocks s id locks).1.txn_info := by
  have h := wf_emplace_update s.txn_info id
    (fun t => { t with unarrived_lock_requests :=
        t.unarrived_lock_requests - locks.length })
    (fun v => rfl) (fun v => rfl) hw hid
  exact wf_addWaitForEdges
    (((collectBlockers id s.lock_table locks []).2.insertionSort (· ≤ ·)).dedup)
    _ id h.1 hid h.2

theorem wf_step (s s' : LMState) (hw : WfTable s.txn_info)
    (hstep : LMStep s s') : WfTable s'.txn_info := by
  cases hstep with
  | accept id expected hid hn => exact wf_acceptTransaction s id expected hw hid
  | acquire id locks hid hk => exact wf_acquireLocks s id locks hw hid
  | release id s2 out hid hok => exact wf_releaseLocks s id s' out hw hok

theorem wf_reachable (s : LMState) (h : LMReachable s) : WfTable s.txn_info := by
  induction h with
  | init =>
    refine ⟨List.nodup_nil, rfl, ?_, ?_⟩
    · intro kv hkv
      exact absurd hkv (List.not_mem_nil kv)
    · intro j v hv
      exact absurd hv (by simp [lookupTxn, assocFind])
  | step s s' hr hstep ih => exact wf_step s s' ih hstep

/-- C4: wait-for graph balance invariant.  In every state of the
DDRLockManager reachable from the empty initial state by any sequence of
AcceptTransaction, AcquireLocks and ReleaseLocks calls (no resolver pass
interleaved), every txn present in the TxnInfoTable has num_waiting_for
equal to the total number of its non-sentinel occurrences across the
waited_by lists of all txns currently in the table; double-counted
blockers appear the same number of times in waited_by, so decrements on
release balance exactly. -/
theorem lock_manager_wait_graph_balance (s : LMState) (hr : LMReachable s)
    (id : TxnId) (info : TxnInfo)
    (hl : lookupTxn s.txn_info id = some info) :
    info.num_waiting_for = (countWaiters s.txn_info id : Int) :=
  (wf_reachable s hr).2.2.2 id info hl

theorem lock_manager_wait_graph_balance_witness :
    lookupTxn (acquireLocks (acquireLocks (acceptTransaction
        (acquireLocks (acceptTransaction {} 1 2).1 1
          [("a:0", LockMode.WRITE), ("b:0", LockMode.WRITE)]).1 2 2).1
        2 [("a:0", LockMode.WRITE)]).1 2 [("b:0", LockMode.WRITE)]).1.txn_info 2 =
      some { id := 2, unarrived_lock_requests := 0, num_waiting_for := 2,
             waited_by := [] } ∧
    ({ id := 2, unarrived_lock_requests := 0, num_waiting_for := 2,
       waited_by := [] } : TxnInfo).num_waiting_for =
      (countWaiters (acquireLocks (acquireLocks (acceptTransaction
        (acquireLocks (acceptTransaction {} 1 2).1 1
          [("a:0", LockMode.WRITE), ("b:0", LockMode.WRITE)]).1 2 2).1
        2 [("a:0", LockMode.WRITE)]).1 2 [("b:0", LockMode.WRITE)]).1.txn_info 2 : Int) :=
  ⟨by decide,
   lock_manager_wait_graph_balance _
     (LMReachable.step _ _
       (LMReachable.step _ _
         (LMReachable.step _ _
           (LMReachable.step _ _
             (LMReachable.step _ _ LMReachable.init
               (LMStep.accept {} 1 2 (by decide) (by decide)))
             (LMStep.acquire _ 1 [("a:0", LockMode.WRITE), ("b:0", LockMode.WRITE)]
               (by decide) (by decide)))
           (LMStep.accept _ 2 2 (by decide) (by decide)))
         (LMStep.acquire _ 2 [("a:0", LockMode.WRITE)] (by decide) (by decide)))
       (LMStep.acquire _ 2 [("b:0", LockMode.WRITE)] (by decide) (by decide)))
     2 _ (by decide)⟩

theorem runPass_eq_foldl (tbl : TxnTable) (run : SCCRun) :
    runPass tbl run = run.foldl passStep (tbl, []) := rfl

theorem lookup_none_of_not_mem (tbl : TxnTable) (j : TxnId)
    (hj : j ∉ keysOf tbl) : lookupTxn tbl j = none := by
  cases h : lookupTxn tbl j with
  | none => rfl
  | some v => exact absurd (isSome_mem_keys tbl j (by rw [h]; rfl)) hj

theorem table_ext : ∀ (tbl1 tbl2 : TxnTable), keysOf tbl1 = keysOf tbl2 →
    (keysOf tbl1).Nodup → (∀ j, lookupTxn tbl1 j = lookupTxn tbl2 j) →
    tbl1 = tbl2
  | [], [], _, _, _ => rfl
  | [], kv :: r, hk, _, _ => by simp [keysOf] at hk
  | kv :: r, [], hk, _, _ => by simp [keysOf] at hk
  | kv1 :: r1, kv2 :: r2, hk, hnd, hl => by
    rw [keysOf_cons, keysOf_cons] at hk
    have hkey : kv1.1 = kv2.1 := (List.cons.injEq _ _ _ _ ▸ hk).1
    have hkr : keysOf r1 = keysOf r2 := (List.cons.injEq _ _ _ _ ▸ hk).2
    rw [keysOf_cons] at hnd
    have hnotin : kv1.1 ∉ keysOf r1 := (List.nodup_cons.mp hnd).1
    have hndr : (keysOf r1).Nodup := (List.nodup_cons.mp hnd).2
    have hval : kv1.2 = kv2.2 := by
      have h := hl kv1.1
      simp only [lookupTxn, assocFind, if_pos rfl] at h
      rw [if_pos hkey.symm] at h
      exact Option.some.inj h
    have hl' : ∀ j, lookupTxn r1 j = lookupTxn r2 j := by
      intro j
      by_cases hj : kv1.1 = j
      · rw [← hj, lookup_none_of_not_mem r1 kv1.1 hnotin,
          lookup_none_of_not_mem r2 kv1.1 (hkr ▸ hnotin)]
      · have h := hl j
        simp only [lookupTxn, assocFind, if_neg hj] at h
        rw [if_neg (fun hh : kv2.1 = j => hj (hkey ▸ hh))] at h
        exact h
    have htail := table_ext r1 r2 hkr hndr hl'
    have hhead : kv1 = kv2 := Prod.ext hkey hval
    rw [hhead, htail]

theorem resolveMember_outside (ssc : List TxnId) (tbl : TxnTable) (x : TxnId)
    (nxt : Option TxnId) (hnxt : ∀ n, nxt = some n → n ∈ ssc) (j : TxnId)
    (hj : j ∉ ssc) (hjx : j ≠ x) :
    lookupTxn (resolveMember ssc tbl x nxt) j = lookupTxn tbl j := by
  cases hx : lookupTxn tbl x with
  | none => rw [resolveMember_absent ssc tbl x nxt hx]
  | some info =>
    rw [lookup_resolveMember ssc tbl x nxt info hx j]
    cases hl : lookupTxn tbl j with
    | none => rfl
    | some t =>
      simp only [Option.map_some']
      have hdec : (rewriteSlots ssc info.waited_by nxt).decs.count j = 0 := by
        rw [rewriteSlots_decs]
        rw [List.count_eq_zero]
        intro hmem
        exact hj (by simpa using (List.mem_filter.mp hmem).2)
      cases t
      cases nxt with
      | none => simp [eq_false hjx, hdec]
      | some n =>
        have hjn : j ≠ n := fun hh => hj (hh ▸ hnxt n rfl)
        simp [eq_false hjx, eq_false hjn, hdec]

theorem resolveChain_outside (ssc : List TxnId) :
    ∀ (l : List TxnId) (tbl : TxnTable), (∀ m ∈ l, m ∈ ssc) →
      ∀ j, j ∉ ssc → lookupTxn (resolveChain ssc tbl l) j = lookupTxn tbl j
  | [], _, _, _, _ => rfl
  | y :: rest, tbl, hsub, j, hj => by
    show lookupTxn (resolveMember ssc (resolveChain ssc tbl rest) y rest.head?) j = _
    rw [resolveMember_outside ssc _ y rest.head?
        (fun n hn => hsub n (List.mem_cons_of_mem y
          (List.mem_of_mem_head? (by simpa using hn))))
        j hj (fun hh => hj (hh ▸ hsub y (List.mem_cons_self y rest))),
      resolveChain_outside ssc rest tbl
        (fun m hm => hsub m (List.mem_cons_of_mem y hm)) j hj]

theorem resolveDeadlock_fst_eq (tbl : TxnTable) (c : List TxnId) :
    (resolveDeadlock tbl c).1 =
      resolveChain (c.insertionSort (· ≤ ·)) tbl (c.insertionSort (· ≤ ·)) := by
  show (match (c.insertionSort (· ≤ ·)).head? with
    | some h =>
      match lookupTxn (resolveChain (c.insertionSort (· ≤ ·)) tbl
          (c.insertionSort (· ≤ ·))) h with
      | some info =>
        (resolveChain (c.insertionSort (· ≤ ·)) tbl (c.insertionSort (· ≤ ·)),
         if info.is_ready then some h else none)
      | none =>
        (resolveChain (c.insertionSort (· ≤ ·)) tbl (c.insertionSort (· ≤ ·)),
         none)
    | none =>
      (resolveChain (c.insertionSort (· ≤ ·)) tbl (c.insertionSort (· ≤ ·)),
       none)).1 = _
  cases (c.insertionSort (· ≤ ·)).head? with
  | none => rfl
  | some hd =>
    show (match lookupTxn (resolveChain (c.insertionSort (· ≤ ·)) tbl
        (c.insertionSort (· ≤ ·))) hd with
      | some info =>
        (resolveChain (c.insertionSort (· ≤ ·)) tbl (c.insertionSort (· ≤ ·)),
         if info.is_ready then some hd else none)
      | none =>
        (resolveChain (c.insertionSort (· ≤ ·)) tbl (c.insertionSort (· ≤ ·)),
         none)).1 = _
    cases lookupTxn (resolveChain (c.insertionSort (· ≤ ·)) tbl
        (c.insertionSort (· ≤ ·))) hd <;> rfl

theorem resolveDeadlock_snd_eq (tbl : TxnTable) (c : List TxnId) :
    (resolveDeadlock tbl c).2 =
      match (c.insertionSort (· ≤ ·)).head? with
      | some h =>
        match lookupTxn (resolveChain (c.insertionSort (· ≤ ·)) tbl
            (c.insertionSort (· ≤ ·))) h with
        | some info => if info.is_ready then some h else none
        | none => none
      | none => none := by
  show (match (c.insertionSort (· ≤ ·)).head? with
    | some h =>
      match lookupTxn (resolveChain (c.insertionSort (· ≤ ·)) tbl
          (c.insertionSort (· ≤ ·))) h with
      | some info =>
        (resolveChain (c.insertionSort (· ≤ ·)) tbl (c.insertionSort (· ≤ ·)),
         if info.is_ready then some h else none)
      | none =>
        (resolveChain (c.insertionSort (· ≤ ·)) tbl (c.insertionSort (· ≤ ·)),
         none)
    | none =>
      (resolveChain (c.insertionSort (· ≤ ·)) tbl (c.insertionSort (· ≤ ·)),
       none)).2 = _
  cases (c.insertionSort (· ≤ ·)).head? with
  | none => rfl
  | some hd =>
    show (match lookupTxn (resolveChain (c.insertionSort (· ≤ ·)) tbl
        (c.insertionSort (· ≤ ·))) hd with
      | some info =>
        (resolveChain (c.insertionSort (· ≤ ·)) tbl (c.insertionSort (· ≤ ·)),
         if info.is_ready then some hd else none)
      | none =>
        (resolveChain (c.insertionSort (· ≤ ·)) tbl (c.insertionSort (· ≤ ·)),
         none)).2 =
      (match lookupTxn (resolveChain (c.insertionSort (· ≤ ·)) tbl
          (c.insertionSort (· ≤ ·))) hd with
        | some info => if info.is_ready then some hd else none
        | none => none)
    cases lookupTxn (resolveChain (c.insertionSort (· ≤ ·)) tbl
        (c.insertionSort (· ≤ ·))) hd <;> rfl

theorem resolveDeadlock_outside (tbl : TxnTable) (c : List TxnId) (j : TxnId)
    (hj : j ∉ c) : lookupTxn (resolveDeadlock tbl c).1 j = lookupTxn tbl j := by
  rw [resolveDeadlock_fst_eq]
  exact resolveChain_outside _ _ tbl (fun m hm => hm) j
    (fun hh => hj ((List.perm_insertionSort (· ≤ ·) c).mem_iff.mp hh))

theorem resolveMember_agree (ssc : List TxnId) (tbl1 tbl2 : TxnTable)
    (x : TxnId) (nxt : Option TxnId) (hx : x ∈ ssc)
    (hagree : ∀ i ∈ ssc, lookupTxn tbl1 i = lookupTxn tbl2 i) :
    ∀ j ∈ ssc, lookupTxn (resolveMember ssc tbl1 x nxt) j =
      lookupTxn (resolveMember ssc tbl2 x nxt) j := by
  intro j hj
  cases h1 : lookupTxn tbl1 x with
  | none =>
    have h2 : lookupTxn tbl2 x = none := (hagree x hx) ▸ h1
    rw [resolveMember_absent ssc tbl1 x nxt h1,
      resolveMember_absent ssc tbl2 x nxt h2]
    exact hagree j hj
  | some info =>
    have h2 : lookupTxn tbl2 x = some info := (hagree x hx) ▸ h1
    rw [lookup_resolveMember ssc tbl1 x nxt info h1 j,
      lookup_resolveMember ssc tbl2 x nxt info h2 j, hagree j hj]

theorem resolveChain_agree (ssc : List TxnId) :
    ∀ (l : List TxnId) (tbl1 tbl2 : TxnTable), (∀ m ∈ l, m ∈ ssc) →
      (∀ i ∈ ssc, lookupTxn tbl1 i = lookupTxn tbl2 i) →
      ∀ j ∈ ssc, lookupTxn (resolveChain ssc tbl1 l) j =
        lookupTxn (resolveChain ssc tbl2 l) j
  | [], tbl1, tbl2, _, hagree, j, hj => hagree j hj
  | y :: rest, tbl1, tbl2, hsub, hagree, j, hj => by
    show lookupTxn (resolveMember ssc (resolveChain ssc tbl1 rest) y rest.head?) j =
      lookupTxn (resolveMember ssc (resolveChain ssc tbl2 rest) y rest.head?) j
    exact resolveMember_agree ssc _ _ y rest.head?
      (hsub y (List.mem_cons_self y rest))
      (resolveChain_agree ssc rest tbl1 tbl2
        (fun m hm => hsub m (List.mem_cons_of_mem y hm)) hagree)
      j hj

theorem resolveDeadlock_agree (tbl1 tbl2 : TxnTable) (c : List TxnId)
    (hagree : ∀ i ∈ c, lookupTxn tbl1 i = lookupTxn tbl2 i) :
    (∀ j ∈ c, lookupTxn (resolveDeadlock tbl1 c).1 j =
      lookupTxn (resolveDeadlock tbl2 c).1 j) ∧
    (resolveDeadlock tbl1 c).2 = (resolveDeadlock tbl2 c).2 := by
  have hperm := List.perm_insertionSort (· ≤ ·) c
  have hagree' : ∀ i ∈ c.insertionSort (· ≤ ·),
      lookupTxn tbl1 i = lookupTxn tbl2 i :=
    fun i hi => hagree i (hperm.mem_iff.mp hi)
  have hin := resolveChain_agree (c.insertionSort (· ≤ ·))
    (c.insertionSort (· ≤ ·)) tbl1 tbl2 (fun m hm => hm) hagree'
  constructor
  · intro j hj
    rw [resolveDeadlock_fst_eq, resolveDeadlock_fst_eq]
    exact hin j (hperm.mem_iff.mpr hj)
  · rw [resolveDeadlock_snd_eq tbl1 c, resolveDeadlock_snd_eq tbl2 c]
    cases hh : (c.insertionSort (· ≤ ·)).head? with
    | none => rfl
    | some hd =>
      have hhd : hd ∈ c.insertionSort (· ≤ ·) :=
        List.mem_of_mem_head? (by simpa using hh)
      show (match lookupTxn (resolveChain (c.insertionSort (· ≤ ·)) tbl1
          (c.insertionSort (· ≤ ·))) hd with
        | some info => if info.is_ready then some hd else none
        | none => none) =
        (match lookupTxn (resolveChain (c.insertionSort (· ≤ ·)) tbl2
            (c.insertionSort (· ≤ ·))) hd with
          | some info => if info.is_ready then some hd else none
          | none => none)
      rw [hin hd hhd]

theorem resolveDeadlock_perm (tbl : TxnTable) (c1 c2 : List TxnId)
    (h : c1.Perm c2) : resolveDeadlock tbl c1 = resolveDeadlock tbl c2 := by
  have hs : c1.insertionSort (· ≤ ·) = c2.insertionSort (· ≤ ·) :=
    List.eq_of_perm_of_sorted
      ((List.perm_insertionSort _ c1).trans
        (h.trans (List.perm_insertionSort _ c2).symm))
      (List.sorted_insertionSort _ c1) (List.sorted_insertionSort _ c2)
  unfold resolveDeadlock
  rw [hs]

theorem readyOf_sortComp (tbl : TxnTable) (p : List TxnId × Bool) :
    readyOf tbl (sortComp p) = readyOf tbl p := by
  have hlen : (p.1.insertionSort (· ≤ ·)).length = p.1.length :=
    (List.perm_insertionSort (· ≤ ·) p.1).length_eq
  have hrd : resolveDeadlock tbl (p.1.insertionSort (· ≤ ·)) =
      resolveDeadlock tbl p.1 :=
    resolveDeadlock_perm tbl _ _ (List.perm_insertionSort (· ≤ ·) p.1)
  show (if p.2 && decide (1 < (p.1.insertionSort (· ≤ ·)).length) then
      (resolveDeadlock tbl (p.1.insertionSort (· ≤ ·))).2 else none) =
    readyOf tbl p
  rw [hlen, hrd]
  rfl

theorem keysOf_foldl_decNwf : ∀ (ds : List TxnId) (tbl : TxnTable),
    keysOf (ds.foldl decNwf tbl) = keysOf tbl
  | [], _ => rfl
  | d :: ds, tbl => by
    rw [List.foldl_cons, keysOf_foldl_decNwf ds (decNwf tbl d)]
    exact keysOf_updateTxn tbl d _

theorem keysOf_resolveMember (ssc : List TxnId) (tbl : TxnTable) (x : TxnId)
    (nxt : Option TxnId) : keysOf (resolveMember ssc tbl x nxt) = keysOf tbl := by
  cases hx : lookupTxn tbl x with
  | none => rw [resolveMember_absent ssc tbl x nxt hx]
  | some info =>
    have hres : resolveMember ssc tbl x nxt =
        (rewriteSlots ssc info.waited_by nxt).decs.foldl decNwf
          (match nxt with
           | some n =>
             if (rewriteSlots ssc info.waited_by nxt).pend = none
             then incNwf (setWaitedBy tbl x
                 (rewriteSlots ssc info.waited_by nxt).slots) n
             else setWaitedBy tbl x (rewriteSlots ssc info.waited_by nxt).slots
           | none => setWaitedBy tbl x
               (rewriteSlots ssc info.waited_by nxt).slots) := by
      unfold resolveMember
      rw [hx]
    rw [hres, keysOf_foldl_decNwf]
    cases nxt with
    | none => exact keysOf_updateTxn tbl x _
    | some n =>
      show keysOf (if (rewriteSlots ssc info.waited_by (some n)).pend = none
          then incNwf (setWaitedBy tbl x
              (rewriteSlots ssc info.waited_by (some n)).slots) n
          else setWaitedBy tbl x
              (rewriteSlots ssc info.waited_by (some n)).slots) = keysOf tbl
      by_cases hp : (rewriteSlots ssc info.waited_by (some n)).pend = none
      · rw [if_pos hp]
        show keysOf (updateTxn (updateTxn tbl x _) n _) = keysOf tbl
        rw [keysOf_updateTxn, keysOf_updateTxn]
      · rw [if_neg hp]
        exact keysOf_updateTxn tbl x _

theorem keysOf_resolveChain (ssc : List TxnId) :
    ∀ (l : List TxnId) (tbl : TxnTable),
      keysOf (resolveChain ssc tbl l) = keysOf tbl
  | [], _ => rfl
  | y :: rest, tbl => by
    show keysOf (resolveMember ssc (resolveChain ssc tbl rest) y rest.head?) = _
    rw [keysOf_resolveMember, keysOf_resolveChain ssc rest tbl]

theorem keysOf_resolveDeadlock (tbl : TxnTable) (c : List TxnId) :
    keysOf (resolveDeadlock tbl c).1 = keysOf tbl := by
  rw [resolveDeadlock_fst_eq, keysOf_resolveChain]

theorem keysOf_foldl_passStep : ∀ (run : SCCRun) (st : TxnTable × List TxnId),
    keysOf (run.foldl passStep st).1 = keysOf st.1
  | [], _ => rfl
  | p :: rest, st => by
    rw [List.foldl_cons, keysOf_foldl_passStep rest (passStep st p)]
    show keysOf (passStep st p).1 = keysOf st.1
    unfold passStep
    by_cases hgo : p.2 && decide (1 < p.1.length)
    · rw [if_pos hgo]
      exact keysOf_resolveDeadlock st.1 p.1
    · rw [if_neg hgo]

theorem foldl_passStep_outside : ∀ (run : SCCRun) (st : TxnTable × List TxnId)
    (j : TxnId), (∀ p ∈ run, j ∉ p.1) →
    lookupTxn (run.foldl passStep st).1 j = lookupTxn st.1 j
  | [], _, _, _ => rfl
  | p :: rest, st, j, hj => by
    rw [List.foldl_cons,
      foldl_passStep_outside rest (passStep st p) j
        (fun q hq => hj q (List.mem_cons_of_mem p hq))]
    show lookupTxn (passStep st p).1 j = lookupTxn st.1 j
    unfold passStep
    by_cases hgo : p.2 && decide (1 < p.1.length)
    · rw [if_pos hgo]
      exact resolveDeadlock_outside st.1 p.1 j (hj p (List.mem_cons_self p rest))
    · rw [if_neg hgo]

theorem passStep_agree (tbl0 : TxnTable) (st : TxnTable × List TxnId)
    (p : List TxnId × Bool) (rest : SCCRun)
    (hagree : ∀ q ∈ p :: rest, ∀ i ∈ q.1, lookupTxn st.1 i = lookupTxn tbl0 i)
    (hhd : ∀ q ∈ rest, ∀ i ∈ p.1, i ∉ q.1) :
    ∀ q ∈ rest, ∀ i ∈ q.1, lookupTxn (passStep st p).1 i = lookupTxn tbl0 i := by
  intro q hq i hi
  have hnotp : i ∉ p.1 := fun hip => (hhd q hq) i hip hi
  show lookupTxn (passStep st p).1 i = _
  unfold passStep
  by_cases hgo : p.2 && decide (1 < p.1.length)
  · rw [if_pos hgo]
    show lookupTxn (resolveDeadlock st.1 p.1).1 i = _
    rw [resolveDeadlock_outside st.1 p.1 i hnotp]
    exact hagree q (List.mem_cons_of_mem p hq) i hi
  · rw [if_neg hgo]
    exact hagree q (List.mem_cons_of_mem p hq) i hi

theorem foldl_passStep_snd (tbl0 : TxnTable) : ∀ (run : SCCRun)
    (st : TxnTable × List TxnId),
    (∀ q ∈ run, ∀ i ∈ q.1, lookupTxn st.1 i = lookupTxn tbl0 i) →
    List.Pairwise (fun p q => ∀ i ∈ p.1, i ∉ q.1) run →
    (run.foldl passStep st).2 = st.2 ++ run.filterMap (readyOf tbl0)
  | [], st, _, _ => by simp
  | p :: rest, st, hagree, hdisj => by
    have hhd := (List.pairwise_cons.mp hdisj).1
    have hdr := (List.pairwise_cons.mp hdisj).2
    have hagree_p : ∀ i ∈ p.1, lookupTxn st.1 i = lookupTxn tbl0 i :=
      hagree p (List.mem_cons_self p rest)
    rw [List.foldl_cons,
      foldl_passStep_snd tbl0 rest (passStep st p)
        (passStep_agree tbl0 st p rest hagree hhd) hdr,
      List.filterMap_cons]
    have hsnd : (resolveDeadlock st.1 p.1).2 = (resolveDeadlock tbl0 p.1).2 :=
      (resolveDeadlock_agree st.1 tbl0 p.1 hagree_p).2
    by_cases hgo : p.2 && decide (1 < p.1.length)
    · have hps : (passStep st p).2 = st.2 ++ (resolveDeadlock st.1 p.1).2.toList := by
        unfold passStep
        rw [if_pos hgo]
      have hro : readyOf tbl0 p = (resolveDeadlock tbl0 p.1).2 := by
        unfold readyOf
        rw [if_pos hgo]
      rw [hps, hro, hsnd]
      cases (resolveDeadlock tbl0 p.1).2 <;> simp [Option.toList]
    · have hps : (passStep st p).2 = st.2 := by
        unfold passStep
        rw [if_neg hgo]
      have hro : readyOf tbl0 p = none := by
        unfold readyOf
        rw [if_neg hgo]
      rw [hps, hro]

theorem foldl_passStep_member (tbl0 : TxnTable) : ∀ (run : SCCRun)
    (st : TxnTable × List TxnId) (p : List TxnId × Bool), p ∈ run →
    ∀ j ∈ p.1,
    (∀ q ∈ run, ∀ i ∈ q.1, lookupTxn st.1 i = lookupTxn tbl0 i) →
    List.Pairwise (fun p q => ∀ i ∈ p.1, i ∉ q.1) run →
    lookupTxn (run.foldl passStep st).1 j =
      if p.2 && decide (1 < p.1.length) then
        lookupTxn (resolveDeadlock tbl0 p.1).1 j
      else lookupTxn tbl0 j
  | q0 :: rest, st, p, hp, j, hj, hagree, hdisj => by
    have hhd := (List.pairwise_cons.mp hdisj).1
    have hdr := (List.pairwise_cons.mp hdisj).2
    rw [List.foldl_cons]
    rcases List.mem_cons.mp hp with hpq | hpr
    · subst hpq
      have hnot_rest : ∀ q ∈ rest, j ∉ q.1 := fun q hq => hhd q hq j hj
      rw [foldl_passStep_outside rest (passStep st p) j hnot_rest]
      have hagree_p : ∀ i ∈ p.1, lookupTxn st.1 i = lookupTxn tbl0 i :=
        hagree p (List.mem_cons_self p rest)
      by_cases hgo : p.2 && decide (1 < p.1.length)
      · rw [if_pos hgo]
        have hps : (passStep st p).1 = (resolveDeadlock st.1 p.1).1 := by
          unfold passStep
          rw [if_pos hgo]
        rw [hps]
        exact (resolveDeadlock_agree st.1 tbl0 p.1 hagree_p).1 j hj
      · rw [if_neg hgo]
        have hps : (passStep st p).1 = st.1 := by
          unfold passStep
          rw [if_neg hgo]
        rw [hps]
        exact hagree_p j hj
    · exact foldl_passStep_member tbl0 rest (passStep st q0) p hpr j hj
        (passStep_agree tbl0 st q0 rest hagree hhd) hdr

theorem sameSCC_symm (tbl : TxnTable) (u v : TxnId) (h : SameSCC tbl u v) :
    SameSCC tbl v u := ⟨h.2, h.1⟩

theorem sameSCC_trans (tbl : TxnTable) (u v w : TxnId) (h1 : SameSCC tbl u v)
    (h2 : SameSCC tbl v w) : SameSCC tbl u w :=
  ⟨Relation.ReflTransGen.trans h1.1 h2.1, Relation.ReflTransGen.trans h2.2 h1.2⟩

theorem stableComp_congr (tbl : TxnTable) (c1 c2 : List TxnId)
    (h : ∀ m, m ∈ c1 ↔ m ∈ c2) : StableComp tbl c1 ↔ StableComp tbl c2 := by
  constructor
  · intro hs u m hm hr
    exact hs u m ((h m).mpr hm) hr
  · intro hs u m hm hr
    exact hs u m ((h m).mp hm) hr

theorem validRun_parts (tbl : TxnTable) (run : SCCRun)
    (hnd : (keysOf tbl).Nodup) (hv : ValidRun tbl run) :
    (∀ p ∈ run, p.1.Nodup) ∧
    List.Pairwise (fun p q => ∀ i ∈ p.1, i ∉ q.1) run := by
  have hfl : (run.map (·.1)).flatten.Nodup := (hv.1.nodup_iff).mpr hnd
  have hparts := List.nodup_flatten.mp hfl
  constructor
  · intro p hp
    exact hparts.1 p.1 (List.mem_map_of_mem (·.1) hp)
  · have hdm := List.pairwise_map.mp hparts.2
    exact List.Pairwise.imp (fun hd i hip hiq => hd hip hiq) hdm

theorem comps_match (tbl : TxnTable) (run1 run2 : SCCRun)
    (hnd : (keysOf tbl).Nodup) (h1 : ValidRun tbl run1) (h2 : ValidRun tbl run2)
    (p1 : List TxnId × Bool) (hp1 : p1 ∈ run1) (j : TxnId) (hj : j ∈ p1.1) :
    ∃ p2 ∈ run2, j ∈ p2.1 ∧ p1.1.Perm p2.1 ∧ p1.2 = p2.2 := by
  obtain ⟨hne1, ⟨r1, hr1, hiff1⟩, hflag1⟩ := h1.2 p1 hp1
  have hjk : j ∈ keysOf tbl := ((hiff1 j).mp hj).1
  have hjfl : j ∈ (run2.map (·.1)).flatten := h2.1.mem_iff.mpr hjk
  obtain ⟨l, hl, hjl⟩ := List.mem_flatten.mp hjfl
  obtain ⟨p2, hp2, hlp2⟩ := List.mem_map.mp hl
  rw [← hlp2] at hjl
  obtain ⟨hne2, ⟨r2, hr2, hiff2⟩, hflag2⟩ := h2.2 p2 hp2
  have hsc1 : SameSCC tbl j r1 := ((hiff1 j).mp hj).2
  have hsc2 : SameSCC tbl j r2 := ((hiff2 j).mp hjl).2
  have hmem : ∀ m, m ∈ p1.1 ↔ m ∈ p2.1 := by
    intro m
    rw [hiff1 m, hiff2 m]
    constructor
    · rintro ⟨hk, hs⟩
      exact ⟨hk, sameSCC_trans tbl m j r2
        (sameSCC_trans tbl m r1 j hs (sameSCC_symm tbl j r1 hsc1)) hsc2⟩
    · rintro ⟨hk, hs⟩
      exact ⟨hk, sameSCC_trans tbl m j r1
        (sameSCC_trans tbl m r2 j hs (sameSCC_symm tbl j r2 hsc2)) hsc1⟩
  have hn1 : p1.1.Nodup := (validRun_parts tbl run1 hnd h1).1 p1 hp1
  have hn2 : p2.1.Nodup := (validRun_parts tbl run2 hnd h2).1 p2 hp2
  have hperm : p1.1.Perm p2.1 := (List.perm_ext_iff_of_nodup hn1 hn2).mpr hmem
  have hflag : p1.2 = p2.2 := by
    have hiffb : p1.2 = true ↔ p2.2 = true := by
      rw [hflag1, hflag2]
      exact stableComp_congr tbl p1.1 p2.1 hmem
    cases hb1 : p1.2 <;> cases hb2 : p2.2 <;> simp_all
  exact ⟨p2, hp2, hjl, hperm, hflag⟩

theorem sortComp_eq_of_perm (p q : List TxnId × Bool) (hp : p.1.Perm q.1)
    (hf : p.2 = q.2) : sortComp p = sortComp q := by
  unfold sortComp
  rw [hf, List.eq_of_perm_of_sorted
    ((List.perm_insertionSort _ p.1).trans
      (hp.trans (List.perm_insertionSort _ q.1).symm))
    (List.sorted_insertionSort _ p.1) (List.sorted_insertionSort _ q.1)]

theorem sorted_runs_perm (tbl : TxnTable) (run1 run2 : SCCRun)
    (hnd : (keysOf tbl).Nodup) (h1 : ValidRun tbl run1) (h2 : ValidRun tbl run2) :
    (run1.map sortComp).Perm (run2.map sortComp) := by
  have himg : ∀ (run : SCCRun), ValidRun tbl run → (run.map sortComp).Nodup := by
    intro run hv
    apply List.pairwise_map.mpr
    apply List.Pairwise.imp_of_mem ?_ (validRun_parts tbl run hnd hv).2
    intro p q hp hq hS heq
    obtain ⟨hne, _, _⟩ := hv.2 p hp
    obtain ⟨x, hx⟩ := List.exists_mem_of_ne_nil p.1 hne
    have hsort : p.1.insertionSort (· ≤ ·) = q.1.insertionSort (· ≤ ·) :=
      congrArg Prod.fst heq
    have hxq : x ∈ q.1 := by
      have hx1 : x ∈ p.1.insertionSort (· ≤ ·) :=
        (List.perm_insertionSort _ p.1).mem_iff.mpr hx
      rw [hsort] at hx1
      exact (List.perm_insertionSort _ q.1).mem_iff.mp hx1
    exact hS x hx hxq
  apply (List.perm_ext_iff_of_nodup (himg run1 h1) (himg run2 h2)).mpr
  intro q
  constructor
  · intro hq
    obtain ⟨p1, hp1, hq1⟩ := List.mem_map.mp hq
    obtain ⟨hne, _, _⟩ := h1.2 p1 hp1
    obtain ⟨j, hj⟩ := List.exists_mem_of_ne_nil p1.1 hne
    obtain ⟨p2, hp2, hj2, hperm, hflag⟩ :=
      comps_match tbl run1 run2 hnd h1 h2 p1 hp1 j hj
    rw [← hq1, sortComp_eq_of_perm p1 p2 hperm hflag]
    exact List.mem_map_of_mem sortComp hp2
  · intro hq
    obtain ⟨p2, hp2, hq2⟩ := List.mem_map.mp hq
    obtain ⟨hne, _, _⟩ := h2.2 p2 hp2
    obtain ⟨j, hj⟩ := List.exists_mem_of_ne_nil p2.1 hne
    obtain ⟨p1, hp1, hj1, hperm, hflag⟩ :=
      comps_match tbl run2 run1 hnd h2 h1 p2 hp2 j hj
    rw [← hq2, sortComp_eq_of_perm p2 p1 hperm hflag]
    exact List.mem_map_of_mem sortComp hp1

/-- C2: one resolver pass is deterministic in its input snapshot.  The SCC
phase is modeled by its postcondition: a valid run lists the snapshot's
mutual-reachability classes with their canonical stability flags, the
traversal order of the graph appearing only as the outer order of the
components and the inner order of their members.  Any two valid runs over
the same snapshot with unique keys produce the same post-resolve table
(hence identical waited_by lists and num_waiting_for counters) and the
same multiset of newly-ready txn ids; the ascending member sort inside
ResolveDeadlock is what removes the inner-order dependence. -/
theorem resolver_pass_deterministic (tbl : TxnTable) (run1 run2 : SCCRun)
    (hnd : (keysOf tbl).Nodup) (h1 : ValidRun tbl run1) (h2 : ValidRun tbl run2) :
    (runPass tbl run1).1 = (runPass tbl run2).1 ∧
    (runPass tbl run1).2.Perm (runPass tbl run2).2 := by
  have hd1 := (validRun_parts tbl run1 hnd h1).2
  have hd2 := (validRun_parts tbl run2 hnd h2).2
  have hagree1 : ∀ q ∈ run1, ∀ i ∈ q.1,
      lookupTxn (tbl, ([] : List TxnId)).1 i = lookupTxn tbl i :=
    fun _ _ _ _ => rfl
  have hagree2 : ∀ q ∈ run2, ∀ i ∈ q.1,
      lookupTxn (tbl, ([] : List TxnId)).1 i = lookupTxn tbl i :=
    fun _ _ _ _ => rfl
  constructor
  · apply table_ext
    · rw [runPass_eq_foldl, runPass_eq_foldl, keysOf_foldl_passStep,
        keysOf_foldl_passStep]
    · rw [runPass_eq_foldl, keysOf_foldl_passStep]
      exact hnd
    · intro j
      by_cases hjk : j ∈ keysOf tbl
      · have hjfl1 : j ∈ (run1.map (·.1)).flatten := h1.1.mem_iff.mpr hjk
        obtain ⟨l, hl, hjl⟩ := List.mem_flatten.mp hjfl1
        obtain ⟨p1, hp1, hlp1⟩ := List.mem_map.mp hl
        rw [← hlp1] at hjl
        obtain ⟨p2, hp2, hj2, hperm, hflag⟩ :=
          comps_match tbl run1 run2 hnd h1 h2 p1 hp1 j hjl
        rw [runPass_eq_foldl, runPass_eq_foldl,
          foldl_passStep_member tbl run1 (tbl, []) p1 hp1 j hjl hagree1 hd1,
          foldl_passStep_member tbl run2 (tbl, []) p2 hp2 j hj2 hagree2 hd2,
          hflag, hperm.length_eq, resolveDeadlock_perm tbl p1.1 p2.1 hperm]
      · rw [lookup_none_of_not_mem _ j
            (by rw [runPass_eq_foldl, keysOf_foldl_passStep]; exact hjk),
          lookup_none_of_not_mem _ j
            (by rw [runPass_eq_foldl, keysOf_foldl_passStep]; exact hjk)]
  · rw [runPass_eq_foldl, runPass_eq_foldl,
      foldl_passStep_snd tbl run1 (tbl, []) hagree1 hd1,
      foldl_passStep_snd tbl run2 (tbl, []) hagree2 hd2]
    simp only [List.nil_append]
    have hcan : ∀ run : SCCRun, run.filterMap (readyOf tbl) =
        (run.map sortComp).filterMap (readyOf tbl) := by
      intro run
      rw [List.filterMap_map sortComp (readyOf tbl) run]
      exact List.filterMap_congr (fun p _ => (readyOf_sortComp tbl p).symm)
    rw [hcan run1, hcan run2]
    exact (sorted_runs_perm tbl run1 run2 hnd h1 h2).filterMap (readyOf tbl)

theorem resolver_pass_deterministic_witness :
    ValidRun
      [(1, { id := 1, unarrived_lock_requests := 0, num_waiting_for := 1,
             waited_by := [2] }),
       (2, { id := 2, unarrived_lock_requests := 0, num_waiting_for := 1,
             waited_by := [1] })] [([1, 2], true)] ∧
    ValidRun
      [(1, { id := 1, unarrived_lock_requests := 0, num_waiting_for := 1,
             waited_by := [2] }),
       (2, { id := 2, unarrived_lock_requests := 0, num_waiting_for := 1,
             waited_by := [1] })] [([2, 1], true)] ∧
    (runPass
      [(1, { id := 1, unarrived_lock_requests := 0, num_waiting_for := 1,
             waited_by := [2] }),
       (2, { id := 2, unarrived_lock_requests := 0, num_waiting_for := 1,
             waited_by := [1] })] [([1, 2], true)]).1 =
      (runPass
        [(1, { id := 1, unarrived_lock_requests := 0, num_waiting_for := 1,
               waited_by := [2] }),
         (2, { id := 2, unarrived_lock_requests := 0, num_waiting_for := 1,
               waited_by := [1] })] [([2, 1], true)]).1 ∧
    (runPass
      [(1, { id := 1, unarrived_lock_requests := 0, num_waiting_for := 1,
             waited_by := [2] }),
       (2, { id := 2, unarrived_lock_requests := 0, num_waiting_for := 1,
             waited_by := [1] })] [([1, 2], true)]).2.Perm
      (runPass
        [(1, { id := 1, unarrived_lock_requests := 0, num_waiting_for := 1,
               waited_by := [2] }),
         (2, { id := 2, unarrived_lock_requests := 0, num_waiting_for := 1,
               waited_by := [1] })] [([2, 1], true)]).2 := by
  have hcomplete : ∀ u m : TxnId, (m = 1 ∨ m = 2) →
      Reach [(1, { id := 1, unarrived_lock_requests := 0, num_waiting_for := 1,
                   waited_by := [2] }),
             (2, { id := 2, unarrived_lock_requests := 0, num_waiting_for := 1,
                   waited_by := [1] })] u m →
      completeAt [(1, { id := 1, unarrived_lock_requests := 0,
                        num_waiting_for := 1, waited_by := [2] }),
                  (2, { id := 2, unarrived_lock_requests := 0,
                        num_waiting_for := 1, waited_by := [1] })] u = true := by
    intro u m hm hr
    rcases reach_src_cases _ u m hr with heq | hsome
    · subst heq
      rcases hm with h | h <;> (subst h; decide)
    · have hu : u ∈ ([1, 2] : List TxnId) := isSome_mem_keys _ u hsome
      fin_cases hu <;> decide
  have hsc21 : SameSCC
      [(1, { id := 1, unarrived_lock_requests := 0, num_waiting_for := 1,
             waited_by := [2] }),
       (2, { id := 2, unarrived_lock_requests := 0, num_waiting_for := 1,
             waited_by := [1] })] 2 1 :=
    ⟨Relation.ReflTransGen.single (by decide),
     Relation.ReflTransGen.single (by decide)⟩
  have hv1 : ValidRun
      [(1, { id := 1, unarrived_lock_requests := 0, num_waiting_for := 1,
             waited_by := [2] }),
       (2, { id := 2, unarrived_lock_requests := 0, num_waiting_for := 1,
             waited_by := [1] })] [([1, 2], true)] := by
    refine ⟨List.Perm.refl _, ?_⟩
    intro p hp
    rw [List.mem_singleton] at hp
    subst hp
    refine ⟨by decide, ⟨1, by decide, ?_⟩, ?_⟩
    · intro m
      constructor
      · intro hm
        fin_cases hm
        · exact ⟨by decide,
            Relation.ReflTransGen.refl, Relation.ReflTransGen.refl⟩
        · exact ⟨by decide, hsc21⟩
      · rintro ⟨hk, _⟩
        exact hk
    · constructor
      · intro _ u m hm hr
        refine hcomplete u m ?_ hr
        fin_cases hm
        · exact Or.inl rfl
        · exact Or.inr rfl
      · intro _
        rfl
  have hv2 : ValidRun
      [(1, { id := 1, unarrived_lock_requests := 0, num_waiting_for := 1,
             waited_by := [2] }),
       (2, { id := 2, unarrived_lock_requests := 0, num_waiting_for := 1,
             waited_by := [1] })] [([2, 1], true)] := by
    refine ⟨List.Perm.swap 1 2 [], ?_⟩
    intro p hp
    rw [List.mem_singleton] at hp
    subst hp
    refine ⟨by decide, ⟨1, by decide, ?_⟩, ?_⟩
    · intro m
      constructor
      · intro hm
        fin_cases hm
        · exact ⟨by decide, hsc21⟩
        · exact ⟨by decide,
            Relation.ReflTransGen.refl, Relation.ReflTransGen.refl⟩
      · rintro ⟨hk, _⟩
        have hk' : m ∈ ([1, 2] : List TxnId) := hk
        fin_cases hk' <;> decide
    · constructor
      · intro _ u m hm hr
        refine hcomplete u m ?_ hr
        fin_cases hm
        · exact Or.inr rfl
        · exact Or.inl rfl
      · intro _
        rfl
  exact ⟨hv1, hv2,
    resolver_pass_deterministic _ [([1, 2], true)] [([2, 1], true)]
      (by decide) hv1 hv2⟩

end Slog
